import Mathlib

/-!
Shallow embedding of `tensorflow/compiler/mlir/tensorflow/analysis/side_effect_analysis.cc`
(the TF MLIR side-effect analysis that computes control-dependency edges between
side-effecting operations), together with theorems settling the specification
claims about it.

Modelling conventions:
* Operations are identified by natural-number ids (`OpId`); within one function the
  ids are assumed to enumerate program order, so the MLIR comparator
  `a->isBeforeInBlock(b)` is modelled by `a < b` on ids.
* `ResourceId` is `Int`; the sentinel `ResourceAliasAnalysis::Info::kUnknownResourceId`
  is `-1` (its value in the TF codebase); concrete resource ids are the other integers.
* `llvm::DenseMap` fields are modelled as association lists with unique keys in
  insertion order; `operator[]` is modelled by `updateRecord` / `setPreds`
  (value-initializing a fresh entry when the key is absent, as `DenseMap` does).
* `llvm::SmallDenseSet` / `llvm::DenseSet` are modelled as duplicate-free lists in
  insertion order (`insertId` / `insertResource`): iteration order of the C++ sets
  is unspecified, the list order is one concrete choice, and the exposed graph is
  sorted afterwards exactly as in the source.
* The external oracles (resource alias analysis, the tf2xla resource-operation
  table, `isa<...>` classification and the dialect side-effect query) are embedded
  as per-operation data in `OpData`: each field records the answer the oracle
  gives for that operation.
* The `SideEffectAnalysisInfo(Region*, alias_analysis)` constructor used for child
  regions is not in the translated file (it lives in the header).  Modelled from the
  spec: "recursively analyzes each nested region as its own scope, merges its edges
  upward" — a child region is analyzed starting from a fresh empty state and only
  its `control_predecessors_` entries are moved into the parent map.
-/

namespace SideEffect

abbrev OpId := Nat

abbrev ResourceId := Int

/-- Sentinel resource id `ResourceAliasAnalysis::Info::kUnknownResourceId` (= -1). -/
def kUnknownResourceId : ResourceId := -1

/-- DenseSet-style insert: no duplicates, insertion order. -/
def insertUnique {α : Type} [DecidableEq α] (s : List α) (v : α) : List α :=
  if v ∈ s then s else s ++ [v]

/-- DenseSet-style insert for operation-id sets. -/
def insertId (s : List OpId) (v : OpId) : List OpId :=
  insertUnique s v

/-- DenseSet-style insert for resource-id sets. -/
def insertResource (s : List ResourceId) (v : ResourceId) : List ResourceId :=
  insertUnique s v

/-- `resources.insert(ids.begin(), ids.end())`: insert a whole range. -/
def insertResources (s : List ResourceId) (l : List ResourceId) : List ResourceId :=
  l.foldl insertResource s

/-- Answer of the resource alias analysis for one resource-typed value: either the
value's resource identity is statically unknown, or a set of concrete ids it may
alias (`GetResourceUniqueIds`). -/
inductive ValueResource where
  | unknownResource : ValueResource
  | knownResource (ids : List ResourceId) : ValueResource
deriving DecidableEq, Repr

/-- `tensorflow::XlaResourceOpKind`: the access kind recorded in the tf2xla
resource-operation table. -/
inductive XlaResourceOpKind where
  | kRead : XlaResourceOpKind
  | kWrite : XlaResourceOpKind
  | kReadWrite : XlaResourceOpKind
deriving DecidableEq, Repr

/-- Per-operation data: the operation's id plus the answers the external oracles
(`isa<...>` classification, the dialect, the tf2xla resource-operation table and
the alias analysis for the operation's resource-typed operands and results) give
for it. -/
structure OpData where
  id : OpId
  isVarHandleOp : Bool := false
  isIdentityNOp : Bool := false
  isIdentityOp : Bool := false
  isTFDialect : Bool := true
  canHaveSideEffects : Bool := true
  resourceOpTableEntry : Option XlaResourceOpKind := none
  operands : List ValueResource := []
  results : List ValueResource := []
deriving DecidableEq, Repr

/-- `UnknownResourceSet()`: a set that contains only `kUnknownResourceId`. -/
def UnknownResourceSet : List ResourceId := [kUnknownResourceId]

/-- The two early-returning loops of `FindAccessedResources`: walk the
resource-typed values; on the first value with unknown identity give up (`none`),
otherwise accumulate the union of the unique-id sets. -/
def accumulateResources : List ValueResource → List ResourceId → Option (List ResourceId)
  | [], acc => some acc
  | .unknownResource :: _, _ => none
  | .knownResource ids :: rest, acc => accumulateResources rest (insertResources acc ids)

/-- `FindAccessedResources(op, alias_analysis)`: all resources that could be
accessed by the operation, or `UnknownResourceSet()` if any resource-typed operand
or result has unknown identity. -/
def FindAccessedResources (d : OpData) : List ResourceId :=
  match accumulateResources (d.operands ++ d.results) [] with
  | none => UnknownResourceSet
  | some s => s

/-- `GetResourceInfoForOp(op)`: the tf2xla table entry for the operation, or
`none` when the operation is not in the TF dialect or has no table entry. -/
def GetResourceInfoForOp (d : OpData) : Option XlaResourceOpKind :=
  if d.isTFDialect then d.resourceOpTableEntry else none

/-- `OpIsReadOnly(op)`: the operation accesses resources and is known read-only. -/
def OpIsReadOnly (d : OpData) : Bool :=
  match GetResourceInfoForOp d with
  | some kind => kind == .kRead
  | none => false

/-- `OpIsDeclaration(op, alias_analysis)`: a `VarHandleOp`, or an
`IdentityNOp`/`IdentityOp` whose accessed-resource set is non-empty. -/
def OpIsDeclaration (d : OpData) : Bool :=
  d.isVarHandleOp ||
    ((d.isIdentityNOp || d.isIdentityOp) && !(FindAccessedResources d).isEmpty)

/-- `OpIsKnownToHaveNoSideEffect(op)`: `IdentityOp` is treated as side-effect
free; other TF-dialect ops are queried through `CanHaveSideEffects`; everything
else conservatively may have side effects. -/
def OpIsKnownToHaveNoSideEffect (d : OpData) : Bool :=
  if d.isIdentityOp then true
  else if d.isTFDialect then !d.canHaveSideEffects
  else false

/-- The per-resource access record kept in `per_resource_access_info_`
(value-initialized fields, as `DenseMap::operator[]` default-constructs them). -/
structure ResourceAccessInfo where
  last_write : Option OpId := none
  reads_since_last_write : List OpId := []
  tracked_last_unknown_write_for_read : Bool := false
  tracked_last_unknown_write_for_write : Bool := false
  tracked_last_unknown_read : Bool := false
deriving DecidableEq, Repr

/-- `per_resource_access_info_`: resource id → access record. -/
abbrev AccessMap := List (ResourceId × ResourceAccessInfo)

/-- `control_predecessors_`: operation → set of control predecessors. -/
abbrev PredMap := List (OpId × List OpId)

/-- The mutable analysis state of one `SideEffectAnalysisInfo` while its region is
being analyzed. -/
structure AnalysisState where
  per_resource_access_info : AccessMap := []
  control_predecessors : PredMap := []
deriving DecidableEq, Repr

/-- `DenseMap::find(k)`: the value stored under the first (and, by the unique-key
invariant, only) entry with key `k`. -/
def lookupA {κ β : Type} [BEq κ] (m : List (κ × β)) (k : κ) : Option β :=
  (m.find? (fun e => e.1 == k)).map (·.2)

/-- `DenseMap::operator[](k)` followed by mutating the referenced value: update
the value of the existing entry, or append a new entry holding `f dflt` (where
`dflt` is the value-initialized value `operator[]` creates). -/
def upsert {κ β : Type} [BEq κ] (m : List (κ × β)) (k : κ) (dflt : β)
    (f : β → β) : List (κ × β) :=
  if (m.find? (fun e => e.1 == k)).isSome then
    m.map (fun e => if e.1 == k then (e.1, f e.2) else e)
  else m ++ [(k, f dflt)]

/-- `per_resource_access_info_.find(resource_id)`. -/
def findRecord (m : AccessMap) (r : ResourceId) : Option ResourceAccessInfo :=
  lookupA m r

/-- `per_resource_access_info_[resource_id]` followed by mutating the record in
place: update the existing record, or append a modified value-initialized one. -/
def updateRecord (m : AccessMap) (r : ResourceId)
    (f : ResourceAccessInfo → ResourceAccessInfo) : AccessMap :=
  upsert m r {} f

/-- `control_predecessors_.find(op)` as an optional set. -/
def findPreds (m : PredMap) (op : OpId) : Option (List OpId) :=
  lookupA m op

/-- The predecessor set of `op` (empty when no entry exists). -/
def predsOf (m : PredMap) (op : OpId) : List OpId :=
  (findPreds m op).getD []

/-- `control_predecessors_[op] = s`: overwrite the entry, or append a new one. -/
def setPreds (m : PredMap) (op : OpId) (s : List OpId) : PredMap :=
  upsert m op [] (fun _ => s)

/-- `SideEffectAnalysisInfo::TrackAccess(resource_id, op, read_only)`. -/
def TrackAccess (st : AnalysisState) (resource_id : ResourceId) (op : OpId)
    (read_only : Bool) : AnalysisState :=
  let m :=
    if resource_id == kUnknownResourceId then
      if read_only then
        -- New unknown read is not tracked by any known resource access.
        st.per_resource_access_info.map
          (fun e => (e.1, { e.2 with tracked_last_unknown_read := false }))
      else
        -- Unknown write can clear all other tracked information (a barrier).
        []
    else st.per_resource_access_info
  let m := updateRecord m resource_id (fun info =>
    if read_only then
      { info with
          reads_since_last_write := info.reads_since_last_write ++ [op],
          tracked_last_unknown_write_for_write := true }
    else
      { info with
          tracked_last_unknown_write_for_read := true,
          tracked_last_unknown_write_for_write := true,
          tracked_last_unknown_read := true,
          last_write := some op,
          reads_since_last_write := [] })
  { st with per_resource_access_info := m }

/-- `SideEffectAnalysisInfo::AddPredecessorsForAccess(resource_id, op, read_only)`. -/
def AddPredecessorsForAccess (st : AnalysisState) (resource_id : ResourceId)
    (op : OpId) (read_only : Bool) : AnalysisState :=
  match findRecord st.per_resource_access_info resource_id with
  | none => st
  | some access_info =>
    let s0 := predsOf st.control_predecessors op
    let read_tracked := !read_only && !access_info.reads_since_last_write.isEmpty
    let s1 :=
      if !read_only then access_info.reads_since_last_write.foldl insertId s0
      else s0
    let s2 :=
      match access_info.last_write with
      | some w => if !read_tracked then insertId s1 w else s1
      | none => s1
    { st with control_predecessors := setPreds st.control_predecessors op s2 }

/-- Helper of the predicate below: whether no pending unknown-resource read is
recorded (`no_unknown_read` in `AnalyzeRegion`). -/
def no_unknown_read (m : AccessMap) : Bool :=
  match findRecord m kUnknownResourceId with
  | none => true
  | some u => u.reads_since_last_write.isEmpty

/-- The `unknown_access_indirectly_tracked_by_resource` lambda in
`SideEffectAnalysisInfo::AnalyzeRegion`. -/
def unknown_access_indirectly_tracked_by_resource (m : AccessMap)
    (resource : ResourceId) (read_only : Bool) : Bool :=
  match findRecord m resource with
  | none => false
  | some info =>
    if read_only then info.tracked_last_unknown_write_for_read
    else info.tracked_last_unknown_write_for_write &&
      (info.tracked_last_unknown_read || no_unknown_read m)

/-- The resource set computed in `AnalyzeRegion`:
`resource_op_info ? FindAccessedResources(...) : UnknownResourceSet()`. -/
def OpResources (d : OpData) : List ResourceId :=
  if (GetResourceInfoForOp d).isSome then FindAccessedResources d
  else UnknownResourceSet

/-- The `is_unknown` loop of `AnalyzeRegion`: for every tracked resource other
than the unknown one, add predecessor edges and accumulate the
indirectly-tracked bit (the loop mutates only `control_predecessors_`). -/
def processUnknownAccess (op : OpId) (read_only : Bool) :
    List ResourceId → AnalysisState → Bool → AnalysisState × Bool
  | [], st, ind => (st, ind)
  | r :: rest, st, ind =>
    if r == kUnknownResourceId then processUnknownAccess op read_only rest st ind
    else
      let st := AddPredecessorsForAccess st r op read_only
      let ind := ind ||
        unknown_access_indirectly_tracked_by_resource st.per_resource_access_info r read_only
      processUnknownAccess op read_only rest st ind

/-- The known-resources loop of `AnalyzeRegion`: for each accessed resource, add
predecessor edges, accumulate the indirectly-tracked bit, then immediately update
the access record for that resource. -/
def processKnownAccess (op : OpId) (read_only : Bool) :
    List ResourceId → AnalysisState → Bool → AnalysisState × Bool
  | [], st, ind => (st, ind)
  | r :: rest, st, ind =>
    let st := AddPredecessorsForAccess st r op read_only
    let ind := ind ||
      unknown_access_indirectly_tracked_by_resource st.per_resource_access_info r read_only
    let st := TrackAccess st r op read_only
    processKnownAccess op read_only rest st ind

/-- The edge-emission part of `AnalyzeRegion`'s per-operation loop, reached for
effectful, non-declaration operations: compute the accessed resources, add edges
from known resources (or from every tracked resource, for an unknown access),
add edges from the unknown resource unless indirectly tracked, and update the
tracking state. -/
def analyzeEffectfulOp (d : OpData) (st : AnalysisState) : AnalysisState :=
  let resources := OpResources d
  let is_unknown := kUnknownResourceId ∈ resources
  let read_only := OpIsReadOnly d
  -- First add edges from known resources.
  let step :=
    if is_unknown then
      processUnknownAccess d.id read_only
        (st.per_resource_access_info.map (·.1)) st false
    else
      processKnownAccess d.id read_only resources st false
  let st := step.1
  let indirectly_tracked_unknown_access := step.2
  -- If not indirectly tracked, add edges from the unknown resource.
  let st :=
    if !indirectly_tracked_unknown_access then
      AddPredecessorsForAccess st kUnknownResourceId d.id read_only
    else st
  if is_unknown then TrackAccess st kUnknownResourceId d.id read_only else st

mutual
/-- An MLIR operation: its oracle data plus the regions it owns. -/
inductive Op where
  | mk : OpData → RegionList → Op
  deriving Repr

/-- `op.getRegions()`: the list of regions owned by one operation. -/
inductive RegionList where
  | nil : RegionList
  | cons : Region → RegionList → RegionList
  deriving Repr

/-- An MLIR region: a list of blocks. -/
inductive Region where
  | nil : Region
  | cons : Block → Region → Region
  deriving Repr

/-- An MLIR block: a list of operations. -/
inductive Block where
  | nil : Block
  | cons : Op → Block → Block
  deriving Repr
end

/-- The oracle data of an operation. -/
def Op.data : Op → OpData
  | .mk d _ => d

/-- The regions owned by an operation. -/
def Op.regionList : Op → RegionList
  | .mk _ rs => rs

mutual
/-- `SideEffectAnalysisInfo::AnalyzeRegion(region, alias_analysis)`: walk the
blocks of the region in order, analyzing each operation. -/
def AnalyzeRegion : Region → AnalysisState → AnalysisState
  | .nil, st => st
  | .cons b bs, st => AnalyzeRegion bs (analyzeBlock b st)

/-- The inner loop of `AnalyzeRegion` over the operations of one block. -/
def analyzeBlock : Block → AnalysisState → AnalysisState
  | .nil, st => st
  | .cons o os, st => analyzeBlock os (analyzeOp o st)

/-- The loop over `op.getRegions()`: each child region is analyzed as its own
scope (`SideEffectAnalysisInfo child_analysis(&child, alias_analysis)`, starting
from a fresh state) and the child's `control_predecessors_` entries are moved
into the current region's map. -/
def analyzeChildRegions : RegionList → AnalysisState → AnalysisState
  | .nil, st => st
  | .cons r rs, st =>
    let child := AnalyzeRegion r {}
    analyzeChildRegions rs
      { st with
          control_predecessors :=
            child.control_predecessors.foldl (fun acc e => setPreds acc e.1 e.2)
              st.control_predecessors }

/-- The body of `AnalyzeRegion`'s per-operation loop: recurse into child
regions, skip declarations and ops known to be side-effect free, then hand the
operation to `analyzeEffectfulOp`. -/
def analyzeOp : Op → AnalysisState → AnalysisState
  | .mk d regions, st =>
    let st := analyzeChildRegions regions st
    -- We do not need explicit control edges for declaration ops.
    if OpIsDeclaration d then st
    else if (GetResourceInfoForOp d).isNone && OpIsKnownToHaveNoSideEffect d then st
    else analyzeEffectfulOp d st
end

/-- The finalized per-function graph: `sorted_control_predecessors_` and
`sorted_control_successors_`. -/
structure ControlGraph where
  sorted_control_predecessors : List (OpId × List OpId)
  sorted_control_successors : List (OpId × List OpId)
deriving DecidableEq, Repr

/-- `sorted_control_successors_[predecessor].push_back(op)`. -/
def pushSuccessor (m : List (OpId × List OpId)) (k : OpId) (v : OpId) :
    List (OpId × List OpId) :=
  upsert m k [] (fun l => l ++ [v])

/-- The finalization loops of `SideEffectAnalysisInfo::AnalyzeFunction`: for each
entry of `control_predecessors_` build the forward list and push the mirrored
successor entries, then sort every list by program order (`isBeforeInBlock`,
modelled as `<` on ids; sorting the duplicate-free set with the strict comparator
is modelled by `insertionSort (· ≤ ·)`). -/
def rawSuccessors (cps : PredMap) : List (OpId × List OpId) :=
  cps.foldl (fun acc e => e.2.foldl (fun acc2 p => pushSuccessor acc2 p e.1) acc) []

/-- The finalization of `AnalyzeFunction` continued: the per-op predecessor lists
and the mirrored successor lists, each sorted by program order. -/
def buildGraph (cps : PredMap) : ControlGraph :=
  { sorted_control_predecessors :=
      cps.map (fun e => (e.1, List.insertionSort (· ≤ ·) e.2)),
    sorted_control_successors :=
      (rawSuccessors cps).map (fun e => (e.1, List.insertionSort (· ≤ ·) e.2)) }

/-- `SideEffectAnalysisInfo::AnalyzeFunction(func_op, alias_analysis)`: analyze
the function body as a region starting from an empty state, then finalize. -/
def AnalyzeFunction (body : Region) : ControlGraph :=
  buildGraph (AnalyzeRegion body {}).control_predecessors

/-- The sorted predecessor list of one operation in the finalized graph
(empty when the operation has no entry), as `DirectControlPredecessors` returns
it for a null filter. -/
def sortedPredecessorsOf (g : ControlGraph) (op : OpId) : List OpId :=
  ((g.sorted_control_predecessors.find? (fun e => e.1 == op)).map (·.2)).getD []

/-- The sorted successor list of one operation in the finalized graph. -/
def sortedSuccessorsOf (g : ControlGraph) (op : OpId) : List OpId :=
  ((g.sorted_control_successors.find? (fun e => e.1 == op)).map (·.2)).getD []

/-! Concrete straight-line scenario programs used by the scenario claims.
Each operation is a region-free TF-dialect op whose tf2xla table entry and alias
oracle answers are chosen to give it the stated access. -/

/-- An operation with id `i` that writes the concrete resource `r`. -/
def writeOp (i : OpId) (r : ResourceId) : Op :=
  .mk { id := i, resourceOpTableEntry := some .kWrite,
        operands := [.knownResource [r]] } .nil

/-- An operation with id `i` that reads the concrete resource `r`. -/
def readOp (i : OpId) (r : ResourceId) : Op :=
  .mk { id := i, resourceOpTableEntry := some .kRead,
        operands := [.knownResource [r]] } .nil

/-- An operation with id `i` that writes an unknown resource. -/
def unknownWriteOp (i : OpId) : Op :=
  .mk { id := i, resourceOpTableEntry := some .kWrite,
        operands := [.unknownResource] } .nil

/-- Scenario region for C1: `Wu (writes UNKNOWN)` with id 0, then `W1 (writes r)`
with id 1, in one block. -/
def scenarioUnknownThenWrite (r : ResourceId) : Region :=
  .cons (.cons (unknownWriteOp 0) (.cons (writeOp 1 r) .nil)) .nil

/-- Scenario region for C2: `W1 (writes r)` id 0, `R1a (reads r)` id 1,
`R1b (reads r)` id 2, `W2 (writes r)` id 3, in one block. -/
def scenarioWriteReadReadWrite (r : ResourceId) : Region :=
  .cons (.cons (writeOp 0 r)
    (.cons (readOp 1 r) (.cons (readOp 2 r) (.cons (writeOp 3 r) .nil)))) .nil

/-! Basic lemmas about the set and map combinators of the embedding. -/

theorem mem_insertUnique {α : Type} [DecidableEq α] (s : List α) (v x : α) :
    x ∈ insertUnique s v ↔ x ∈ s ∨ x = v := by
  unfold insertUnique
  split
  · next h =>
    constructor
    · exact Or.inl
    · rintro (hx | rfl)
      · exact hx
      · exact h
  · simp

theorem nodup_insertUnique {α : Type} [DecidableEq α] {s : List α} (v : α)
    (h : s.Nodup) : (insertUnique s v).Nodup := by
  unfold insertUnique
  split
  · exact h
  · next hv => simp [List.nodup_append, h, hv]

theorem mem_foldl_insertUnique {α : Type} [DecidableEq α] (l s : List α) (x : α) :
    x ∈ l.foldl insertUnique s ↔ x ∈ s ∨ x ∈ l := by
  induction l generalizing s with
  | nil => simp
  | cons a l ih =>
    rw [List.foldl_cons, ih, mem_insertUnique]
    simp only [List.mem_cons]
    tauto

theorem nodup_foldl_insertUnique {α : Type} [DecidableEq α] (l : List α) {s : List α}
    (h : s.Nodup) : (l.foldl insertUnique s).Nodup := by
  induction l generalizing s with
  | nil => exact h
  | cons a l ih => exact ih (nodup_insertUnique a h)

theorem mem_foldl_insertId (l s : List OpId) (x : OpId) :
    x ∈ l.foldl insertId s ↔ x ∈ s ∨ x ∈ l :=
  mem_foldl_insertUnique l s x

theorem mem_insertResources (s l : List ResourceId) (x : ResourceId) :
    x ∈ insertResources s l ↔ x ∈ s ∨ x ∈ l :=
  mem_foldl_insertUnique l s x

theorem find?_map_upsertFun {κ β : Type} [BEq κ] (m : List (κ × β)) (k k' : κ)
    (f : β → β) :
    (m.map (fun e => if e.1 == k then (e.1, f e.2) else e)).find?
        (fun e => e.1 == k') =
      (m.find? (fun e => e.1 == k')).map
        (fun e => if e.1 == k then (e.1, f e.2) else e) := by
  induction m with
  | nil => rfl
  | cons e m ih =>
    have hfst : ((if e.1 == k then (e.1, f e.2) else e).1 == k') = (e.1 == k') := by
      split <;> rfl
    simp only [List.map_cons, List.find?_cons, hfst]
    cases h : (e.1 == k') with
    | true => simp
    | false => simpa using ih

theorem lookupA_nil {κ β : Type} [BEq κ] (k : κ) :
    lookupA ([] : List (κ × β)) k = none := rfl

theorem lookupA_upsert_self {κ β : Type} [BEq κ] [LawfulBEq κ]
    (m : List (κ × β)) (k : κ) (d : β) (f : β → β) :
    lookupA (upsert m k d f) k = some (f ((lookupA m k).getD d)) := by
  unfold lookupA upsert
  cases hf : m.find? (fun e => e.1 == k) with
  | none =>
    simp only [hf, Option.isSome_none, Bool.false_eq_true, if_false,
      List.find?_append, hf, Option.none_or]
    simp [List.find?]
  | some e0 =>
    have hk := List.find?_some hf
    simp only at hk
    simp only [hf, Option.isSome_some, if_true, find?_map_upsertFun, hf,
      Option.map_some', hk, if_true]
    rfl

theorem lookupA_upsert_ne {κ β : Type} [BEq κ] [LawfulBEq κ]
    (m : List (κ × β)) (k k' : κ) (d : β) (f : β → β) (h : k' ≠ k) :
    lookupA (upsert m k d f) k' = lookupA m k' := by
  have hkk : (k == k') = false := by
    rw [beq_eq_false_iff_ne]
    exact fun hh => h hh.symm
  unfold lookupA upsert
  cases hf : m.find? (fun e => e.1 == k) with
  | none =>
    simp only [hf, Option.isSome_none, Bool.false_eq_true, if_false,
      List.find?_append]
    simp [List.find?, hkk]
  | some e0 =>
    simp only [hf, Option.isSome_some, if_true, find?_map_upsertFun]
    cases hg : m.find? (fun e => e.1 == k') with
    | none => rfl
    | some e1 =>
      have hk1 := List.find?_some hg
      simp only at hk1
      have hne : (e1.1 == k) = false := by
        rw [beq_eq_false_iff_ne]
        intro hh
        exact h ((eq_of_beq hk1).symm.trans hh)
      simp [hne]

theorem map_fst_upsert {κ β : Type} [BEq κ] (m : List (κ × β)) (k : κ) (d : β)
    (f : β → β) :
    (upsert m k d f).map Prod.fst = m.map Prod.fst ∨
      (upsert m k d f).map Prod.fst = m.map Prod.fst ++ [k] := by
  unfold upsert
  split
  · left
    rw [List.map_map]
    apply List.map_congr_left
    intro e _
    simp only [Function.comp_apply]
    split <;> rfl
  · right
    simp

theorem nodup_keys_upsert {κ β : Type} [BEq κ] [LawfulBEq κ]
    {m : List (κ × β)} (k : κ) (d : β) (f : β → β)
    (h : (m.map Prod.fst).Nodup) : ((upsert m k d f).map Prod.fst).Nodup := by
  unfold upsert
  split
  · next =>
    have : (m.map (fun e => if e.1 == k then (e.1, f e.2) else e)).map Prod.fst =
        m.map Prod.fst := by
      rw [List.map_map]
      apply List.map_congr_left
      intro e _
      simp only [Function.comp_apply]
      split <;> rfl
    rw [this]
    exact h
  · next hf =>
    have hnot : k ∉ m.map Prod.fst := by
      intro hk
      rcases List.mem_map.mp hk with ⟨e, he, hke⟩
      have h2 := List.find?_eq_none.mp (Option.not_isSome_iff_eq_none.mp hf) e he
      simp only at h2
      exact h2 (by rw [hke]; exact beq_self_eq_true k)
    simp [List.nodup_append, h, hnot]

theorem upsert_forall {κ β : Type} [BEq κ] {P : κ × β → Prop}
    {m : List (κ × β)} {k : κ} {d : β} {f : β → β}
    (h1 : ∀ e ∈ m, P e)
    (h2 : ∀ e ∈ m, (e.1 == k) = true → P (e.1, f e.2))
    (h3 : P (k, f d)) :
    ∀ e ∈ upsert m k d f, P e := by
  intro e he
  unfold upsert at he
  split at he
  · rcases List.mem_map.mp he with ⟨e0, he0, hmap⟩
    by_cases hk : (e0.1 == k) = true
    · rw [if_pos hk] at hmap
      exact hmap ▸ h2 e0 he0 hk
    · rw [if_neg hk] at hmap
      exact hmap ▸ h1 e0 he0
  · rcases List.mem_append.mp he with he0 | he0
    · exact h1 e he0
    · rw [List.mem_singleton.mp he0]
      exact h3

theorem lookupA_some_mem {κ β : Type} [BEq κ] [LawfulBEq κ]
    {m : List (κ × β)} {k : κ} {b : β} (h : lookupA m k = some b) :
    ∃ e ∈ m, e.1 = k ∧ e.2 = b := by
  unfold lookupA at h
  cases hf : m.find? (fun e => e.1 == k) with
  | none => rw [hf] at h; cases h
  | some e0 =>
    rw [hf] at h
    have hk := List.find?_some hf
    simp only at hk
    simp only [Option.map_some', Option.some_inj] at h
    exact ⟨e0, List.mem_of_find?_eq_some hf, eq_of_beq hk, h⟩

theorem lookupA_of_nodup_mem {κ β : Type} [BEq κ] [LawfulBEq κ]
    {m : List (κ × β)} (hn : (m.map Prod.fst).Nodup) {e : κ × β} (he : e ∈ m) :
    lookupA m e.1 = some e.2 := by
  induction m with
  | nil => cases he
  | cons e0 m ih =>
    rw [List.map_cons, List.nodup_cons] at hn
    rcases List.mem_cons.mp he with rfl | he'
    · simp [lookupA, List.find?_cons]
    · have hne : (e0.1 == e.1) = false := by
        rw [beq_eq_false_iff_ne]
        intro hh
        exact hn.1 (hh ▸ List.mem_map.mpr ⟨e, he', rfl⟩)
      simp only [lookupA, List.find?_cons, hne]
      exact ih hn.2 he'

theorem accumulateResources_mono {x : ResourceId} (l : List ValueResource) :
    ∀ (acc s : List ResourceId), x ∈ acc →
      accumulateResources l acc = some s → x ∈ s := by
  induction l with
  | nil =>
    intro acc s hx h
    simp only [accumulateResources, Option.some_inj] at h
    exact h ▸ hx
  | cons v rest ih =>
    intro acc s hx h
    cases v with
    | unknownResource => simp [accumulateResources] at h
    | knownResource ids =>
      exact ih _ s ((mem_insertResources acc ids x).mpr (Or.inl hx)) h

/-! Claim theorems. -/

/-- C7: for an effectful operation for which the classification oracle returns no
verdict (`GetResourceInfoForOp d = none`), the analysis uses the resource set
exactly `{UNKNOWN}` (`UnknownResourceSet`, the singleton of the unknown id) and
treats the access with write semantics (`OpIsReadOnly d = false`). -/
theorem claim_C7_unclassified_unknown_write (d : OpData)
    (h : GetResourceInfoForOp d = none) :
    OpResources d = UnknownResourceSet ∧
    OpResources d = [kUnknownResourceId] ∧
    OpIsReadOnly d = false := by
  refine ⟨?_, ?_, ?_⟩
  · simp [OpResources, h]
  · simp [OpResources, h, UnknownResourceSet]
  · simp [OpIsReadOnly, h]

/-- Witness for C7: a concrete TF-dialect operation with no table entry. -/
theorem claim_C7_witness :
    OpResources { id := 7 } = [kUnknownResourceId] ∧
    OpIsReadOnly { id := 7 } = false :=
  ⟨(claim_C7_unclassified_unknown_write { id := 7 } rfl).2.1,
   (claim_C7_unclassified_unknown_write { id := 7 } rfl).2.2⟩

/-- C9: for every operation that reaches resource-set computation, the computed
accessed-resource set is non-empty, provided the operation has at least one
resource operand or result and the alias oracle returns a non-empty id set for
every value it can resolve; hence the `assert(!resources.empty())` in
`AnalyzeRegion` never fires there.  (For an unclassified operation the set is
`UnknownResourceSet`, non-empty unconditionally.) -/
theorem claim_C9_resource_set_nonempty (d : OpData)
    (hne : d.operands ++ d.results ≠ [])
    (hids : ∀ ids, ValueResource.knownResource ids ∈ d.operands ++ d.results →
      ids ≠ []) :
    OpResources d ≠ [] := by
  unfold OpResources
  split
  · unfold FindAccessedResources
    cases hacc : accumulateResources (d.operands ++ d.results) [] with
    | none => simp [UnknownResourceSet]
    | some s =>
      simp only
      cases hl : d.operands ++ d.results with
      | nil => exact absurd hl hne
      | cons v rest =>
        rw [hl] at hacc
        cases v with
        | unknownResource => simp [accumulateResources] at hacc
        | knownResource ids =>
          have hmem : ValueResource.knownResource ids ∈ d.operands ++ d.results := by
            rw [hl]; exact List.mem_cons_self _ _
          rcases List.exists_mem_of_ne_nil ids (hids ids hmem) with ⟨y, hy⟩
          have hy2 : y ∈ insertResources [] ids :=
            (mem_insertResources [] ids y).mpr (Or.inr hy)
          simp only [accumulateResources] at hacc
          exact List.ne_nil_of_mem (accumulateResources_mono rest _ s hy2 hacc)
  · simp [UnknownResourceSet]

/-- Witness for C9: a concrete classified write with one resource operand. -/
theorem claim_C9_witness :
    OpResources { id := 3, resourceOpTableEntry := some .kWrite,
                  operands := [.knownResource [4]] } ≠ [] :=
  claim_C9_resource_set_nonempty _ (by simp)
    (by intro ids h; simp at h; subst h; simp)

/-- C4: characterization of the `unknown_access_indirectly_tracked_by_resource`
predicate: false for an untracked resource; for a read-only access true iff the
record's `tracked_last_unknown_write_for_read` flag is set; for a write access
true iff the record's `tracked_last_unknown_write_for_write` flag is set and
(`tracked_last_unknown_read` is set, or no pending unknown-resource reads are
recorded). -/
theorem claim_C4_indirectly_tracked (m : AccessMap) (resource : ResourceId) :
    (findRecord m resource = none →
      ∀ read_only,
        unknown_access_indirectly_tracked_by_resource m resource read_only = false) ∧
    (∀ info, findRecord m resource = some info →
      ((unknown_access_indirectly_tracked_by_resource m resource true = true ↔
          info.tracked_last_unknown_write_for_read = true) ∧
        (unknown_access_indirectly_tracked_by_resource m resource false = true ↔
          (info.tracked_last_unknown_write_for_write = true ∧
            (info.tracked_last_unknown_read = true ∨
              ∀ u, findRecord m kUnknownResourceId = some u →
                u.reads_since_last_write = []))))) := by
  constructor
  · intro h read_only
    unfold unknown_access_indirectly_tracked_by_resource
    rw [h]
  · intro info h
    have hnur : (no_unknown_read m = true) ↔
        (∀ u, findRecord m kUnknownResourceId = some u →
          u.reads_since_last_write = []) := by
      unfold no_unknown_read
      cases hu : findRecord m kUnknownResourceId with
      | none => simp
      | some u => simp [List.isEmpty_iff]
    constructor
    · unfold unknown_access_indirectly_tracked_by_resource
      rw [h]
      simp
    · have hred : unknown_access_indirectly_tracked_by_resource m resource false =
          (info.tracked_last_unknown_write_for_write &&
            (info.tracked_last_unknown_read || no_unknown_read m)) := by
        unfold unknown_access_indirectly_tracked_by_resource
        rw [h]
        rfl
      rw [hred, Bool.and_eq_true, Bool.or_eq_true, hnur]

theorem lookupA_clear_unknown_read (m : AccessMap) (k : ResourceId) :
    lookupA (m.map
        (fun e => (e.1, { e.2 with tracked_last_unknown_read := false }))) k =
      (lookupA m k).map (fun i => { i with tracked_last_unknown_read := false }) := by
  induction m with
  | nil => rfl
  | cons e m ih =>
    cases h : (e.1 == k) with
    | true => simp [lookupA, List.find?_cons, h]
    | false =>
      simp only [List.map_cons, lookupA, List.find?_cons, h] at ih ⊢
      exact ih

/-- C3: `AddPredecessorsForAccess(resource_id, op, read_only)` is a no-op when
the resource has no access record; when a record exists it never changes the
per-resource map nor any other operation's predecessor set, and the predecessor
set of `op` grows exactly by the record's `reads_since_last_write` (for a write
access) and by the record's `last_write` if and only if the latter exists and no
reads were added by this same call. -/
theorem claim_C3_add_predecessors (st : AnalysisState) (resource_id : ResourceId)
    (op : OpId) (read_only : Bool) :
    (findRecord st.per_resource_access_info resource_id = none →
      AddPredecessorsForAccess st resource_id op read_only = st) ∧
    (∀ info, findRecord st.per_resource_access_info resource_id = some info →
      (AddPredecessorsForAccess st resource_id op read_only).per_resource_access_info
          = st.per_resource_access_info ∧
      (∀ op2, op2 ≠ op →
        predsOf (AddPredecessorsForAccess st resource_id op
            read_only).control_predecessors op2
          = predsOf st.control_predecessors op2) ∧
      (∀ x, x ∈ predsOf (AddPredecessorsForAccess st resource_id op
            read_only).control_predecessors op ↔
        (x ∈ predsOf st.control_predecessors op ∨
          (read_only = false ∧ x ∈ info.reads_since_last_write) ∨
          (info.last_write = some x ∧
            (read_only = true ∨ info.reads_since_last_write = []))))) := by
  constructor
  · intro h
    unfold AddPredecessorsForAccess
    rw [h]
  · intro info h
    unfold AddPredecessorsForAccess
    rw [h]
    refine ⟨rfl, ?_, ?_⟩
    · intro op2 hop2
      simp only [predsOf, findPreds, setPreds]
      rw [lookupA_upsert_ne _ _ _ _ _ hop2]
    · intro x
      simp only [predsOf, findPreds, setPreds]
      rw [lookupA_upsert_self]
      simp only [Option.getD_some]
      cases read_only with
      | true =>
        cases hlw : info.last_write with
        | none => simp
        | some w => simp [insertId, mem_insertUnique, eq_comm]
      | false =>
        cases hre : info.reads_since_last_write with
        | nil =>
          cases hlw : info.last_write with
          | none => simp
          | some w => simp [insertId, mem_insertUnique, eq_comm]
        | cons a l =>
          cases hlw : info.last_write with
          | none =>
            simp only [List.foldl_cons, insertId]
            rw [if_pos (by simp)]
            rw [mem_foldl_insertId, mem_insertUnique]
            simp [List.mem_cons]
            try tauto
          | some w =>
            simp only [List.foldl_cons, insertId]
            rw [if_neg (by simp)]
            rw [if_pos (by simp)]
            rw [mem_foldl_insertId, mem_insertUnique]
            simp [List.mem_cons]
            try tauto

/-- Witness for C3 at a concrete state whose consulted record holds a last
write: the write-after-write edge is added. -/
theorem claim_C3_witness :
    4 ∈ predsOf (AddPredecessorsForAccess
      { per_resource_access_info := [((2 : ResourceId), { last_write := some 4 })],
        control_predecessors := [] } 2 9 false).control_predecessors 9 :=
  (((claim_C3_add_predecessors
      { per_resource_access_info := [((2 : ResourceId), { last_write := some 4 })],
        control_predecessors := [] } 2 9 false).2 { last_write := some 4 }
      rfl).2.2 4).mpr (Or.inr (Or.inr ⟨rfl, Or.inr rfl⟩))

/-- C8: `TrackAccess(r, op, read)` appends `op` to the resource's
`reads_since_last_write`, sets its `tracked_last_unknown_write_for_write` flag,
and leaves its `tracked_last_unknown_write_for_read` flag unchanged — for every
resource id `r`, the unknown one included. -/
theorem claim_C8_track_read (st : AnalysisState) (r : ResourceId) (op : OpId) :
    ∃ newInfo,
      findRecord (TrackAccess st r op true).per_resource_access_info r
          = some newInfo ∧
      newInfo.reads_since_last_write =
        ((findRecord st.per_resource_access_info r).getD
          {}).reads_since_last_write ++ [op] ∧
      newInfo.tracked_last_unknown_write_for_write = true ∧
      newInfo.tracked_last_unknown_write_for_read =
        ((findRecord st.per_resource_access_info r).getD
          {}).tracked_last_unknown_write_for_read := by
  unfold TrackAccess
  cases hr : (r == kUnknownResourceId) with
  | false =>
    simp only [hr, Bool.false_eq_true, if_false]
    exact ⟨_, lookupA_upsert_self _ _ _ _, rfl, rfl, rfl⟩
  | true =>
    simp only [hr, if_true]
    refine ⟨_, lookupA_upsert_self _ _ _ _, ?_, rfl, ?_⟩
    · rw [lookupA_clear_unknown_read]
      simp only [findRecord]
      cases hl : lookupA st.per_resource_access_info r <;> rfl
    · rw [lookupA_clear_unknown_read]
      simp only [findRecord]
      cases hl : lookupA st.per_resource_access_info r <;> rfl

/-- Witness for C4: a concrete map with one record whose for-read flag is set. -/
theorem claim_C4_witness :
    unknown_access_indirectly_tracked_by_resource
      [((5 : ResourceId), { tracked_last_unknown_write_for_read := true })] 5 true
      = true :=
  (((claim_C4_indirectly_tracked
      [((5 : ResourceId), { tracked_last_unknown_write_for_read := true })] 5).2
      { tracked_last_unknown_write_for_read := true } rfl).1).mpr rfl

/-- C1: a `TrackAccess` with the unknown resource id and write semantics discards
every per-resource access record, leaving exactly one record — the unknown one —
whose `last_write` is the operation (with cleared reads and all tracking flags
set); consequently in the scenario `Wu (writes UNKNOWN)` then `W1 (writes r)` the
finalized graph has `Wu` among `W1`'s predecessors. -/
theorem claim_C1_unknown_write_barrier :
    (∀ (st : AnalysisState) (op : OpId),
      (TrackAccess st kUnknownResourceId op false).per_resource_access_info =
        [(kUnknownResourceId,
          { last_write := some op, reads_since_last_write := [],
            tracked_last_unknown_write_for_read := true,
            tracked_last_unknown_write_for_write := true,
            tracked_last_unknown_read := true })]) ∧
    (∀ r : ResourceId, r ≠ kUnknownResourceId →
      0 ∈ sortedPredecessorsOf
        (AnalyzeFunction (scenarioUnknownThenWrite r)) 1) := by
  constructor
  · intro st op
    rfl
  · intro r h
    have h1 : ¬((-1 : Int) = r) := fun hh => h (by simp [kUnknownResourceId, hh.symm])
    have h2 : ¬(r = (-1 : Int)) := fun hh => h (by simp [kUnknownResourceId, hh])
    have h3 : (r == (-1 : Int)) = false := by simpa using h2
    have h4 : ((-1 : Int) == r) = false := by simpa using h1
    have hgoal : sortedPredecessorsOf
        (AnalyzeFunction (scenarioUnknownThenWrite r)) 1 = [0] := by
      simp [AnalyzeFunction, AnalyzeRegion, analyzeBlock, analyzeOp,
        analyzeEffectfulOp, analyzeChildRegions, scenarioUnknownThenWrite, unknownWriteOp, writeOp,
        OpIsDeclaration, FindAccessedResources, accumulateResources,
        insertResources, insertResource, insertUnique, GetResourceInfoForOp,
        OpIsKnownToHaveNoSideEffect, OpResources, UnknownResourceSet,
        OpIsReadOnly, processKnownAccess, processUnknownAccess,
        AddPredecessorsForAccess, TrackAccess,
        unknown_access_indirectly_tracked_by_resource, no_unknown_read,
        findRecord, updateRecord, findPreds, predsOf, setPreds, insertId,
        lookupA, upsert, buildGraph, rawSuccessors, pushSuccessor,
        sortedPredecessorsOf, h1, h2, h3, h4, kUnknownResourceId]
    rw [hgoal]
    exact List.mem_singleton.mpr rfl

/-- Witness for C1 at the concrete resource id 5. -/
theorem claim_C1_witness :
    0 ∈ sortedPredecessorsOf (AnalyzeFunction (scenarioUnknownThenWrite 5)) 1 :=
  claim_C1_unknown_write_barrier.2 5 (by decide)

/-- C2: in the scenario `W1 (writes r)`, `R1a (reads r)`, `R1b (reads r)`,
`W2 (writes r)` the finalized graph gives both reads exactly the predecessor
`W1`, and gives `W2` exactly the predecessors `R1a` and `R1b` — in particular
`W1` is not among `W2`'s predecessors. -/
theorem claim_C2_write_read_read_write (r : ResourceId)
    (h : r ≠ kUnknownResourceId) :
    sortedPredecessorsOf (AnalyzeFunction (scenarioWriteReadReadWrite r)) 1
        = [0] ∧
    sortedPredecessorsOf (AnalyzeFunction (scenarioWriteReadReadWrite r)) 2
        = [0] ∧
    sortedPredecessorsOf (AnalyzeFunction (scenarioWriteReadReadWrite r)) 3
        = [1, 2] ∧
    0 ∉ sortedPredecessorsOf (AnalyzeFunction (scenarioWriteReadReadWrite r)) 3 := by
  have h1 : ¬((-1 : Int) = r) := fun hh => h (by simp [kUnknownResourceId, hh.symm])
  have h2 : ¬(r = (-1 : Int)) := fun hh => h (by simp [kUnknownResourceId, hh])
  have h3 : (r == (-1 : Int)) = false := by simpa using h2
  have h4 : ((-1 : Int) == r) = false := by simpa using h1
  refine ⟨?_, ?_, ?_, ?_⟩ <;>
  simp [AnalyzeFunction, AnalyzeRegion, analyzeBlock, analyzeOp,
    analyzeEffectfulOp, analyzeChildRegions, scenarioWriteReadReadWrite, writeOp, readOp,
    OpIsDeclaration, FindAccessedResources, accumulateResources,
    insertResources, insertResource, insertUnique, GetResourceInfoForOp,
    OpIsKnownToHaveNoSideEffect, OpResources, UnknownResourceSet,
    OpIsReadOnly, processKnownAccess, processUnknownAccess,
    AddPredecessorsForAccess, TrackAccess,
    unknown_access_indirectly_tracked_by_resource, no_unknown_read,
    findRecord, updateRecord, findPreds, predsOf, setPreds, insertId,
    lookupA, upsert, buildGraph, rawSuccessors, pushSuccessor,
    sortedPredecessorsOf, h1, h2, h3, h4, kUnknownResourceId]

/-- Witness for C2 at the concrete resource id 5. -/
theorem claim_C2_witness :
    sortedPredecessorsOf (AnalyzeFunction (scenarioWriteReadReadWrite 5)) 1
        = [0] ∧
    sortedPredecessorsOf (AnalyzeFunction (scenarioWriteReadReadWrite 5)) 2
        = [0] ∧
    sortedPredecessorsOf (AnalyzeFunction (scenarioWriteReadReadWrite 5)) 3
        = [1, 2] ∧
    0 ∉ sortedPredecessorsOf (AnalyzeFunction (scenarioWriteReadReadWrite 5)) 3 :=
  claim_C2_write_read_read_write 5 (by decide)

/-! Well-formedness of the raw predecessor map: unique keys and duplicate-free
predecessor sets.  This is the invariant behind the sortedness claim. -/

/-- Unique keys (the `DenseMap` invariant) and duplicate-free sets (the
`DenseSet` invariant) of the raw `control_predecessors_` map. -/
def WFPredMap (m : PredMap) : Prop :=
  (m.map Prod.fst).Nodup ∧ ∀ e ∈ m, e.2.Nodup

theorem WFPredMap_nil : WFPredMap [] :=
  ⟨List.nodup_nil, fun e he => absurd he (List.not_mem_nil e)⟩

theorem nodup_insertId {s : List OpId} (v : OpId) (h : s.Nodup) :
    (insertId s v).Nodup :=
  nodup_insertUnique v h

theorem nodup_foldl_insertId (l : List OpId) {s : List OpId} (h : s.Nodup) :
    (l.foldl insertId s).Nodup :=
  nodup_foldl_insertUnique l h

theorem predsOf_nodup {m : PredMap} (h : WFPredMap m) (op : OpId) :
    (predsOf m op).Nodup := by
  unfold predsOf findPreds
  cases hl : lookupA m op with
  | none => simp
  | some v =>
    rcases lookupA_some_mem hl with ⟨e, he, _, hv⟩
    simp only [Option.getD_some]
    exact hv ▸ h.2 e he

theorem WF_setPreds (m : PredMap) (op : OpId) (s : List OpId)
    (h : WFPredMap m) (hs : s.Nodup) : WFPredMap (setPreds m op s) := by
  unfold setPreds
  exact ⟨nodup_keys_upsert _ _ _ h.1, upsert_forall h.2 (fun e _ _ => hs) hs⟩

/-- The predecessor set `AddPredecessorsForAccess` stores for `op` when the
consulted record is `info` and the previous set is `s0`. -/
def addedPreds (info : ResourceAccessInfo) (s0 : List OpId) (ro : Bool) :
    List OpId :=
  let read_tracked := !ro && !info.reads_since_last_write.isEmpty
  let s1 := if !ro then info.reads_since_last_write.foldl insertId s0 else s0
  match info.last_write with
  | some w => if !read_tracked then insertId s1 w else s1
  | none => s1

theorem AddPreds_eq (st : AnalysisState) (r : ResourceId) (op : OpId)
    (ro : Bool) :
    AddPredecessorsForAccess st r op ro =
      match findRecord st.per_resource_access_info r with
      | none => st
      | some info =>
        { st with control_predecessors := setPreds st.control_predecessors op (addedPreds info (predsOf st.control_predecessors op) ro) } := rfl

theorem nodup_addedPreds (info : ResourceAccessInfo) (s0 : List OpId)
    (ro : Bool) (h0 : s0.Nodup) : (addedPreds info s0 ro).Nodup := by
  have h1 : (if (!ro) = true then
      info.reads_since_last_write.foldl insertId s0 else s0).Nodup := by
    split
    · exact nodup_foldl_insertId _ h0
    · exact h0
  cases hlw : info.last_write with
  | none =>
    unfold addedPreds
    dsimp only
    simp only [hlw]
    exact h1
  | some w =>
    unfold addedPreds
    dsimp only
    simp only [hlw]
    rcases Bool.eq_false_or_eq_true
        (!(!ro && !info.reads_since_last_write.isEmpty)) with hrt | hrt
    · rw [if_pos hrt]
      exact nodup_insertId _ h1
    · rw [if_neg
        (by simp [hrt] :
          ¬((!(!ro && !info.reads_since_last_write.isEmpty)) = true))]
      exact h1

theorem WF_AddPreds (st : AnalysisState) (r : ResourceId) (op : OpId)
    (ro : Bool) (h : WFPredMap st.control_predecessors) :
    WFPredMap (AddPredecessorsForAccess st r op ro).control_predecessors := by
  rw [AddPreds_eq]
  cases hf : findRecord st.per_resource_access_info r with
  | none => exact h
  | some info =>
    exact WF_setPreds _ _ _ h (nodup_addedPreds info _ ro (predsOf_nodup h op))

theorem TrackAccess_control_predecessors (st : AnalysisState) (r : ResourceId)
    (op : OpId) (ro : Bool) :
    (TrackAccess st r op ro).control_predecessors = st.control_predecessors := rfl

theorem WF_processKnown (op : OpId) (ro : Bool) :
    ∀ (rs : List ResourceId) (st : AnalysisState) (ind : Bool),
      WFPredMap st.control_predecessors →
      WFPredMap (processKnownAccess op ro rs st ind).1.control_predecessors := by
  intro rs
  induction rs with
  | nil => intro st ind h; exact h
  | cons r rest ih =>
    intro st ind h
    simp only [processKnownAccess]
    apply ih
    rw [TrackAccess_control_predecessors]
    exact WF_AddPreds _ _ _ _ h

theorem WF_processUnknown (op : OpId) (ro : Bool) :
    ∀ (keys : List ResourceId) (st : AnalysisState) (ind : Bool),
      WFPredMap st.control_predecessors →
      WFPredMap (processUnknownAccess op ro keys st ind).1.control_predecessors := by
  intro keys
  induction keys with
  | nil => intro st ind h; exact h
  | cons r rest ih =>
    intro st ind h
    simp only [processUnknownAccess]
    split
    · exact ih _ _ h
    · exact ih _ _ (WF_AddPreds _ _ _ _ h)

theorem WF_analyzeEffectfulOp (d : OpData) (st : AnalysisState)
    (h : WFPredMap st.control_predecessors) :
    WFPredMap (analyzeEffectfulOp d st).control_predecessors := by
  by_cases hu : kUnknownResourceId ∈ OpResources d
  · have hstep := WF_processUnknown d.id (OpIsReadOnly d)
      (st.per_resource_access_info.map (·.1)) st false h
    unfold analyzeEffectfulOp
    dsimp only
    simp only [hu, if_true, ite_true]
    rw [TrackAccess_control_predecessors]
    split
    · exact WF_AddPreds _ _ _ _ hstep
    · exact hstep
  · have hstep := WF_processKnown d.id (OpIsReadOnly d) (OpResources d) st false h
    unfold analyzeEffectfulOp
    dsimp only
    simp only [hu, if_false, ite_false]
    split
    · exact WF_AddPreds _ _ _ _ hstep
    · exact hstep

theorem WF_mergeFold :
    ∀ (entries m : PredMap), WFPredMap m → (∀ e ∈ entries, e.2.Nodup) →
      WFPredMap (entries.foldl (fun acc e => setPreds acc e.1 e.2) m) := by
  intro entries
  induction entries with
  | nil => intro m h _; exact h
  | cons e entries ih =>
    intro m h hv
    rw [List.foldl_cons]
    exact ih _ (WF_setPreds _ _ _ h (hv e (List.mem_cons_self _ _)))
      (fun e' he' => hv e' (List.mem_cons_of_mem _ he'))

/-- The unconditional unfolding of `analyzeOp` on a constructed operation. -/
theorem analyzeOp_mk (d : OpData) (regions : RegionList) (st : AnalysisState) :
    analyzeOp (.mk d regions) st =
      (if OpIsDeclaration d then analyzeChildRegions regions st
       else if (GetResourceInfoForOp d).isNone && OpIsKnownToHaveNoSideEffect d
         then analyzeChildRegions regions st
       else analyzeEffectfulOp d (analyzeChildRegions regions st)) := rfl

mutual
theorem WF_AnalyzeRegion : ∀ (rg : Region) (st : AnalysisState),
    WFPredMap st.control_predecessors →
    WFPredMap (AnalyzeRegion rg st).control_predecessors
  | .nil, _, h => h
  | .cons b bs, st, h => WF_AnalyzeRegion bs _ (WF_analyzeBlock b st h)

theorem WF_analyzeBlock : ∀ (b : Block) (st : AnalysisState),
    WFPredMap st.control_predecessors →
    WFPredMap (analyzeBlock b st).control_predecessors
  | .nil, _, h => h
  | .cons o os, st, h => WF_analyzeBlock os _ (WF_analyzeOp o st h)

theorem WF_analyzeChildRegions : ∀ (rs : RegionList) (st : AnalysisState),
    WFPredMap st.control_predecessors →
    WFPredMap (analyzeChildRegions rs st).control_predecessors
  | .nil, _, h => h
  | .cons r rs, st, h =>
    WF_analyzeChildRegions rs _ (by
      exact WF_mergeFold _ _ h
        (fun e he => (WF_AnalyzeRegion r {} WFPredMap_nil).2 e he))

theorem WF_analyzeOp : ∀ (o : Op) (st : AnalysisState),
    WFPredMap st.control_predecessors →
    WFPredMap (analyzeOp o st).control_predecessors
  | .mk d regions, st, h => by
    rw [analyzeOp_mk]
    have h1 := WF_analyzeChildRegions regions st h
    split
    · exact h1
    · split
      · exact h1
      · exact WF_analyzeEffectfulOp _ _ h1
end

/-! Characterization of the successor map built by `buildGraph`. -/

theorem succ_pushSuccessor (m : List (OpId × List OpId)) (k v : OpId)
    (k' : OpId) :
    (lookupA (pushSuccessor m k v) k').getD [] =
      if k' = k then (lookupA m k').getD [] ++ [v]
      else (lookupA m k').getD [] := by
  unfold pushSuccessor
  by_cases h : k' = k
  · subst h
    rw [lookupA_upsert_self]
    simp
  · rw [lookupA_upsert_ne _ _ _ _ _ h, if_neg h]

theorem succ_foldl_push (opid : OpId) :
    ∀ (ps : List OpId) (acc : List (OpId × List OpId)) (k : OpId), ps.Nodup →
      (lookupA (ps.foldl (fun a p => pushSuccessor a p opid) acc) k).getD [] =
        (lookupA acc k).getD [] ++ (if k ∈ ps then [opid] else []) := by
  intro ps
  induction ps with
  | nil => intro acc k _; simp
  | cons p ps ih =>
    intro acc k hn
    rw [List.foldl_cons, ih _ k (List.nodup_cons.mp hn).2, succ_pushSuccessor]
    by_cases hk : k = p
    · subst hk
      rw [if_pos rfl, if_pos (List.mem_cons_self _ _),
        if_neg (List.nodup_cons.mp hn).1]
      simp
    · rw [if_neg hk]
      by_cases hm : k ∈ ps
      · rw [if_pos hm, if_pos (List.mem_cons_of_mem _ hm)]
      · rw [if_neg hm, if_neg (by simp [List.mem_cons, hk, hm])]

theorem succ_rawFold :
    ∀ (entries : PredMap) (acc : List (OpId × List OpId)) (k : OpId),
      (∀ e ∈ entries, e.2.Nodup) →
      (lookupA (entries.foldl
          (fun acc e => e.2.foldl (fun acc2 p => pushSuccessor acc2 p e.1) acc)
          acc) k).getD [] =
        (lookupA acc k).getD [] ++
          ((entries.filter (fun e => decide (k ∈ e.2))).map Prod.fst) := by
  intro entries
  induction entries with
  | nil => intro acc k _; simp
  | cons e entries ih =>
    intro acc k hv
    rw [List.foldl_cons, ih _ k (fun e' he' => hv e' (List.mem_cons_of_mem _ he')),
      succ_foldl_push e.1 e.2 acc k (hv e (List.mem_cons_self _ _)),
      List.filter_cons]
    by_cases hk : k ∈ e.2
    · simp [hk]
    · simp [hk]

theorem keys_nodup_push_fold (opid : OpId) :
    ∀ (ps : List OpId) (acc : List (OpId × List OpId)),
      (acc.map Prod.fst).Nodup →
      (((ps.foldl (fun a p => pushSuccessor a p opid) acc)).map Prod.fst).Nodup := by
  intro ps
  induction ps with
  | nil => intro acc h; exact h
  | cons p ps ih =>
    intro acc h
    rw [List.foldl_cons]
    exact ih _ (nodup_keys_upsert _ _ _ h)

theorem keys_nodup_rawFold :
    ∀ (entries : PredMap) (acc : List (OpId × List OpId)),
      (acc.map Prod.fst).Nodup →
      ((entries.foldl
          (fun acc e => e.2.foldl (fun acc2 p => pushSuccessor acc2 p e.1) acc)
          acc).map Prod.fst).Nodup := by
  intro entries
  induction entries with
  | nil => intro acc h; exact h
  | cons e entries ih =>
    intro acc h
    rw [List.foldl_cons]
    exact ih _ (keys_nodup_push_fold _ _ _ h)

/-- C6: after `AnalyzeFunction`, every stored predecessor list and every stored
successor list is strictly increasing in program order (the `isBeforeInBlock`
comparator, `<` on operation ids) and therefore duplicate-free. -/
theorem claim_C6_sorted_lists (body : Region) :
    (∀ e ∈ (AnalyzeFunction body).sorted_control_predecessors,
      List.Sorted (· < ·) e.2 ∧ e.2.Nodup) ∧
    (∀ e ∈ (AnalyzeFunction body).sorted_control_successors,
      List.Sorted (· < ·) e.2 ∧ e.2.Nodup) := by
  have hWF : WFPredMap (AnalyzeRegion body {}).control_predecessors :=
    WF_AnalyzeRegion body {} WFPredMap_nil
  constructor
  · intro e he
    unfold AnalyzeFunction buildGraph at he
    simp only [List.mem_map] at he
    rcases he with ⟨e0, he0, rfl⟩
    have hnd : (List.insertionSort (· ≤ ·) e0.2).Nodup :=
      ((List.perm_insertionSort (· ≤ ·) e0.2).nodup_iff).mpr (hWF.2 e0 he0)
    exact ⟨(List.sorted_insertionSort (· ≤ ·) e0.2).lt_of_le hnd, hnd⟩
  · intro e he
    unfold AnalyzeFunction buildGraph at he
    simp only [List.mem_map] at he
    rcases he with ⟨e0, he0, rfl⟩
    have hkeys : ((rawSuccessors
        (AnalyzeRegion body {}).control_predecessors).map Prod.fst).Nodup := by
      unfold rawSuccessors
      exact keys_nodup_rawFold _ [] List.nodup_nil
    have hval : e0.2 = (((AnalyzeRegion body {}).control_predecessors.filter
        (fun e => decide (e0.1 ∈ e.2))).map Prod.fst) := by
      have hl := lookupA_of_nodup_mem hkeys he0
      have := succ_rawFold (AnalyzeRegion body {}).control_predecessors [] e0.1
        hWF.2
      unfold rawSuccessors at hl
      rw [hl] at this
      simpa using this
    have hnd0 : e0.2.Nodup := by
      rw [hval]
      exact ((List.filter_sublist _).map Prod.fst).nodup hWF.1
    have hnd : (List.insertionSort (· ≤ ·) e0.2).Nodup :=
      ((List.perm_insertionSort (· ≤ ·) e0.2).nodup_iff).mpr hnd0
    exact ⟨(List.sorted_insertionSort (· ≤ ·) e0.2).lt_of_le hnd, hnd⟩

/-! Infrastructure for the irreflexivity and declaration claims: the operation
ids stored in access records, and the operation ids occurring in a program
fragment. -/

/-- The operation ids an access record refers to: the last write (if any) and
the reads since it. -/
def recordIds (info : ResourceAccessInfo) : List OpId :=
  (match info.last_write with | some w => [w] | none => []) ++
    info.reads_since_last_write

/-- No map entry lists its own key among its predecessors. -/
def predOK (m : PredMap) : Prop := ∀ e ∈ m, e.1 ∉ e.2

/-- Every operation id referred to by some access record lies in `A`. -/
def recSub (m : AccessMap) (A : List OpId) : Prop :=
  ∀ e ∈ m, ∀ x ∈ recordIds e.2, x ∈ A

mutual
/-- All operation ids in an operation and its nested regions. -/
def Op.allIds : Op → List OpId
  | .mk d rs => d.id :: RegionList.allIds rs

/-- All operation ids in a list of regions. -/
def RegionList.allIds : RegionList → List OpId
  | .nil => []
  | .cons r rs => Region.allIds r ++ RegionList.allIds rs

/-- All operation ids in a region. -/
def Region.allIds : Region → List OpId
  | .nil => []
  | .cons b bs => Block.allIds b ++ Region.allIds bs

/-- All operation ids in a block. -/
def Block.allIds : Block → List OpId
  | .nil => []
  | .cons o os => Op.allIds o ++ Block.allIds os
end

/-- Membership in the predecessor set stored by `AddPredecessorsForAccess`:
the old set, plus the pending reads for a write access, plus the last write
when it exists and no reads were added. -/
theorem mem_addedPreds (info : ResourceAccessInfo) (s0 : List OpId) (ro : Bool)
    (x : OpId) :
    x ∈ addedPreds info s0 ro ↔
      (x ∈ s0 ∨ (ro = false ∧ x ∈ info.reads_since_last_write) ∨
        (info.last_write = some x ∧
          (ro = true ∨ info.reads_since_last_write = []))) := by
  cases ro with
  | true =>
    cases hlw : info.last_write with
    | none =>
      unfold addedPreds
      dsimp only
      simp only [hlw]
      simp
    | some w =>
      unfold addedPreds
      dsimp only
      simp only [hlw]
      rw [if_pos (by simp)]
      rw [insertId, mem_insertUnique]
      simp [eq_comm]
  | false =>
    cases hre : info.reads_since_last_write with
    | nil =>
      cases hlw : info.last_write with
      | none =>
        unfold addedPreds
        dsimp only
        simp only [hlw, hre]
        simp
      | some w =>
        unfold addedPreds
        dsimp only
        simp only [hlw, hre]
        rw [if_pos (by simp)]
        rw [insertId, mem_insertUnique]
        simp [eq_comm]
    | cons a l =>
      cases hlw : info.last_write with
      | none =>
        unfold addedPreds
        dsimp only
        simp only [hlw, hre]
        rw [if_pos (by simp), List.foldl_cons, insertId, mem_foldl_insertId,
          mem_insertUnique]
        simp [List.mem_cons]
        tauto
      | some w =>
        unfold addedPreds
        dsimp only
        simp only [hlw, hre]
        rw [if_neg (by simp), if_pos (by simp), List.foldl_cons, insertId,
          mem_foldl_insertId, mem_insertUnique]
        simp [List.mem_cons]
        tauto

theorem not_mem_addedPreds (info : ResourceAccessInfo) (s0 : List OpId)
    (ro : Bool) (x : OpId) (h0 : x ∉ s0) (h1 : x ∉ recordIds info) :
    x ∉ addedPreds info s0 ro := by
  rw [mem_addedPreds]
  rintro (hx | ⟨_, hx⟩ | ⟨hx, _⟩)
  · exact h0 hx
  · apply h1
    unfold recordIds
    exact List.mem_append.mpr (Or.inr hx)
  · apply h1
    unfold recordIds
    rw [hx]
    exact List.mem_append.mpr (Or.inl (List.mem_singleton.mpr rfl))

/-- `AddPredecessorsForAccess` never changes the per-resource map. -/
theorem AddPreds_pr (st : AnalysisState) (r : ResourceId) (op : OpId)
    (ro : Bool) :
    (AddPredecessorsForAccess st r op ro).per_resource_access_info =
      st.per_resource_access_info := by
  rw [AddPreds_eq]
  cases hf : findRecord st.per_resource_access_info r <;> rfl

/-- `analyzeChildRegions` never changes the per-resource map: child regions are
analyzed in their own fresh state and only their edges are merged. -/
theorem analyzeChildRegions_pr :
    ∀ (rs : RegionList) (st : AnalysisState),
      (analyzeChildRegions rs st).per_resource_access_info =
        st.per_resource_access_info
  | .nil, _ => rfl
  | .cons _ rs, _ => analyzeChildRegions_pr rs _

theorem not_mem_predsOf_self {m : PredMap} (h : predOK m) (op : OpId) :
    op ∉ predsOf m op := by
  unfold predsOf findPreds
  cases hl : lookupA m op with
  | none => simp
  | some v =>
    rcases lookupA_some_mem hl with ⟨e, he, hk, hv⟩
    simp only [Option.getD_some]
    exact hv ▸ hk ▸ h e he

theorem predOK_setPreds {m : PredMap} (op : OpId) {s : List OpId}
    (h : predOK m) (hs : op ∉ s) : predOK (setPreds m op s) := by
  unfold setPreds
  refine upsert_forall h (fun e he hk => ?_) hs
  have : e.1 = op := eq_of_beq hk
  simpa [this] using hs

theorem predOK_AddPreds (st : AnalysisState) (r : ResourceId) (op : OpId)
    (ro : Bool) (h : predOK st.control_predecessors)
    (hrec : ∀ info, findRecord st.per_resource_access_info r = some info →
      op ∉ recordIds info) :
    predOK (AddPredecessorsForAccess st r op ro).control_predecessors := by
  rw [AddPreds_eq]
  cases hf : findRecord st.per_resource_access_info r with
  | none => exact h
  | some info =>
    exact predOK_setPreds op h
      (not_mem_addedPreds info _ ro op (not_mem_predsOf_self h op) (hrec info hf))

/-- For a concrete (non-unknown) resource, `TrackAccess` leaves the records of
all other resources unchanged. -/
theorem findRecord_TrackAccess_ne (st : AnalysisState) (r : ResourceId)
    (op : OpId) (ro : Bool) (r' : ResourceId) (hne : r' ≠ r)
    (hr : r ≠ kUnknownResourceId) :
    findRecord (TrackAccess st r op ro).per_resource_access_info r' =
      findRecord st.per_resource_access_info r' := by
  have hbeq : (r == kUnknownResourceId) = false := by
    rw [beq_eq_false_iff_ne]; exact hr
  unfold TrackAccess
  simp only [hbeq, Bool.false_eq_true, if_false]
  exact lookupA_upsert_ne _ _ _ _ _ hne

/-- The per-resource map produced by `TrackAccess`, spelled out. -/
theorem TrackAccess_pr_eq (st : AnalysisState) (r : ResourceId) (op : OpId)
    (ro : Bool) :
    (TrackAccess st r op ro).per_resource_access_info =
      updateRecord
        (if r == kUnknownResourceId then
          (if ro then
            st.per_resource_access_info.map
              (fun e => (e.1, { e.2 with tracked_last_unknown_read := false }))
          else [])
        else st.per_resource_access_info)
        r
        (fun info =>
          if ro then
            { info with
                reads_since_last_write := info.reads_since_last_write ++ [op],
                tracked_last_unknown_write_for_write := true }
          else
            { info with
                tracked_last_unknown_write_for_read := true,
                tracked_last_unknown_write_for_write := true,
                tracked_last_unknown_read := true,
                last_write := some op,
                reads_since_last_write := [] }) := rfl

/-- A variant of `upsert_forall` taking the predicate explicitly. -/
theorem upsert_forall2 {κ β : Type} [BEq κ] (P : κ × β → Prop)
    (m : List (κ × β)) (k : κ) (d : β) (f : β → β)
    (h1 : ∀ e ∈ m, P e)
    (h2 : ∀ e ∈ m, (e.1 == k) = true → P (e.1, f e.2))
    (h3 : P (k, f d)) : ∀ e ∈ upsert m k d f, P e :=
  upsert_forall h1 h2 h3

/-- The update `TrackAccess` applies to one record only refers to ids the old
record referred to, plus the tracked operation itself. -/
theorem recordIds_trackUpdate (op : OpId) (ro : Bool) (i : ResourceAccessInfo) :
    ∀ x ∈ recordIds (if ro then
        { i with
            reads_since_last_write := i.reads_since_last_write ++ [op],
            tracked_last_unknown_write_for_write := true }
      else
        { i with
            tracked_last_unknown_write_for_read := true,
            tracked_last_unknown_write_for_write := true,
            tracked_last_unknown_read := true,
            last_write := some op,
            reads_since_last_write := [] }),
      x ∈ recordIds i ∨ x = op := by
  cases ro with
  | true =>
    rw [if_pos rfl]
    intro x hx
    unfold recordIds at hx ⊢
    rcases List.mem_append.mp hx with hx | hx
    · exact Or.inl (List.mem_append.mpr (Or.inl hx))
    · rcases List.mem_append.mp hx with hx | hx
      · exact Or.inl (List.mem_append.mpr (Or.inr hx))
      · exact Or.inr (List.mem_singleton.mp hx)
  | false =>
    rw [if_neg (by simp)]
    intro x hx
    unfold recordIds at hx
    rcases List.mem_append.mp hx with hx | hx
    · exact Or.inr (List.mem_singleton.mp hx)
    · exact absurd hx (List.not_mem_nil x)

/-- Every id in a record after `TrackAccess` was in some record before, or is
the tracked operation itself. -/
theorem recordIds_TrackAccess (st : AnalysisState) (r : ResourceId) (op : OpId)
    (ro : Bool) :
    ∀ e ∈ (TrackAccess st r op ro).per_resource_access_info,
      ∀ x ∈ recordIds e.2,
        (∃ e0 ∈ st.per_resource_access_info, x ∈ recordIds e0.2) ∨ x = op := by
  have hm1 : ∀ e1 ∈ (if r == kUnknownResourceId then
      (if ro then
        st.per_resource_access_info.map
          (fun e => (e.1, { e.2 with tracked_last_unknown_read := false }))
      else ([] : AccessMap))
    else st.per_resource_access_info), ∀ y ∈ recordIds e1.2,
      ∃ e0 ∈ st.per_resource_access_info, y ∈ recordIds e0.2 := by
    split
    · split
      · intro e1 he1 y hy
        rcases List.mem_map.mp he1 with ⟨e0, he0, rfl⟩
        exact ⟨e0, he0, hy⟩
      · intro e1 he1
        exact absurd he1 (List.not_mem_nil e1)
    · intro e1 he1 y hy
      exact ⟨e1, he1, hy⟩
  intro e he
  rw [TrackAccess_pr_eq] at he
  unfold updateRecord at he
  refine upsert_forall2
    (fun e => ∀ x ∈ recordIds e.2,
      (∃ e0 ∈ st.per_resource_access_info, x ∈ recordIds e0.2) ∨ x = op)
    _ _ _ _ ?_ ?_ ?_ e he
  · intro e1 he1 x hx
    exact Or.inl (hm1 e1 he1 x hx)
  · intro e1 he1 _ x hx
    rcases recordIds_trackUpdate op ro e1.2 x hx with hx | hx
    · exact Or.inl (hm1 e1 he1 x hx)
    · exact Or.inr hx
  · intro x hx
    rcases recordIds_trackUpdate op ro {} x hx with hx | hx
    · exact absurd hx (List.not_mem_nil x)
    · exact Or.inr hx

theorem nodup_accumulateResources :
    ∀ (l : List ValueResource) (acc s : List ResourceId), acc.Nodup →
      accumulateResources l acc = some s → s.Nodup := by
  intro l
  induction l with
  | nil =>
    intro acc s hn h
    simp only [accumulateResources, Option.some_inj] at h
    exact h ▸ hn
  | cons v rest ih =>
    intro acc s hn h
    cases v with
    | unknownResource => simp [accumulateResources] at h
    | knownResource ids =>
      exact ih _ s (nodup_foldl_insertUnique ids hn) h

theorem nodup_OpResources (d : OpData) : (OpResources d).Nodup := by
  unfold OpResources
  split
  · unfold FindAccessedResources
    cases hacc : accumulateResources (d.operands ++ d.results) [] with
    | none => simp [UnknownResourceSet]
    | some s =>
      simpa using nodup_accumulateResources _ [] s List.nodup_nil hacc
  · simp [UnknownResourceSet]

theorem predOK_processUnknown (opid : OpId) (ro : Bool) :
    ∀ (keys : List ResourceId) (st : AnalysisState) (ind : Bool),
      predOK st.control_predecessors →
      (∀ r' : ResourceId, ∀ info,
        findRecord st.per_resource_access_info r' = some info →
          opid ∉ recordIds info) →
      predOK (processUnknownAccess opid ro keys st ind).1.control_predecessors ∧
      (processUnknownAccess opid ro keys st ind).1.per_resource_access_info =
        st.per_resource_access_info := by
  intro keys
  induction keys with
  | nil => intro st ind h _; exact ⟨h, rfl⟩
  | cons r rest ih =>
    intro st ind h hrec
    simp only [processUnknownAccess]
    split
    · exact ih _ _ h hrec
    · have h1 := predOK_AddPreds st r opid ro h (hrec r)
      have h2 := AddPreds_pr st r opid ro
      rcases ih (AddPredecessorsForAccess st r opid ro) _ h1
        (fun r' info hinfo => hrec r' info (h2 ▸ hinfo)) with ⟨ha, hb⟩
      exact ⟨ha, by rw [hb, h2]⟩

theorem predOK_processKnown (opid : OpId) (ro : Bool) :
    ∀ (rs : List ResourceId) (st : AnalysisState) (ind : Bool),
      predOK st.control_predecessors →
      (∀ r' ∈ kUnknownResourceId :: rs, ∀ info,
        findRecord st.per_resource_access_info r' = some info →
          opid ∉ recordIds info) →
      rs.Nodup → kUnknownResourceId ∉ rs →
      predOK (processKnownAccess opid ro rs st ind).1.control_predecessors ∧
      (∀ info, findRecord
          (processKnownAccess opid ro rs st ind).1.per_resource_access_info
          kUnknownResourceId = some info → opid ∉ recordIds info) ∧
      (∀ e ∈ (processKnownAccess opid ro rs st ind).1.per_resource_access_info,
        ∀ x ∈ recordIds e.2,
          (∃ e0 ∈ st.per_resource_access_info, x ∈ recordIds e0.2) ∨
            x = opid) := by
  intro rs
  induction rs with
  | nil =>
    intro st ind h hrec _ _
    exact ⟨h, hrec kUnknownResourceId (List.mem_singleton.mpr rfl),
      fun e he x hx => Or.inl ⟨e, he, hx⟩⟩
  | cons r rest ih =>
    intro st ind h hrec hnd hnu
    have hrne : r ≠ kUnknownResourceId :=
      fun hh => hnu (hh ▸ List.mem_cons_self _ _)
    simp only [processKnownAccess]
    have hcp1 : predOK (AddPredecessorsForAccess st r opid ro).control_predecessors :=
      predOK_AddPreds st r opid ro h
        (hrec r (List.mem_cons_of_mem _ (List.mem_cons_self _ _)))
    have hpr1 := AddPreds_pr st r opid ro
    have hcp2 : predOK (TrackAccess (AddPredecessorsForAccess st r opid ro) r
        opid ro).control_predecessors := by
      rw [TrackAccess_control_predecessors]
      exact hcp1
    have hrec2 : ∀ r' ∈ kUnknownResourceId :: rest, ∀ info,
        findRecord (TrackAccess (AddPredecessorsForAccess st r opid ro) r opid
          ro).per_resource_access_info r' = some info →
        opid ∉ recordIds info := by
      intro r' hr' info hinfo
      have hner : r' ≠ r := by
        rcases List.mem_cons.mp hr' with rfl | hr''
        · exact fun hh => hrne hh.symm
        · intro hh
          exact (List.nodup_cons.mp hnd).1 (hh ▸ hr'')
      rw [findRecord_TrackAccess_ne _ _ _ _ _ hner hrne, hpr1] at hinfo
      refine hrec r' ?_ info hinfo
      rcases List.mem_cons.mp hr' with rfl | hx
      · exact List.mem_cons_self _ _
      · exact List.mem_cons_of_mem _ (List.mem_cons_of_mem _ hx)
    rcases ih _ _ hcp2 hrec2 (List.nodup_cons.mp hnd).2
      (fun hh => hnu (List.mem_cons_of_mem _ hh)) with ⟨ha, hb, hc⟩
    refine ⟨ha, hb, ?_⟩
    intro e he x hx
    rcases hc e he x hx with ⟨e0, he0, hx0⟩ | hx0
    · rcases recordIds_TrackAccess (AddPredecessorsForAccess st r opid ro) r
        opid ro e0 he0 x hx0 with ⟨e1, he1, hx1⟩ | hx1
      · rw [hpr1] at he1
        exact Or.inl ⟨e1, he1, hx1⟩
      · exact Or.inr hx1
    · exact Or.inr hx0

theorem predOK_analyzeEffectfulOp (d : OpData) (st : AnalysisState)
    (hcp : predOK st.control_predecessors)
    (hrec : ∀ e ∈ st.per_resource_access_info, ∀ x ∈ recordIds e.2, x ≠ d.id) :
    predOK (analyzeEffectfulOp d st).control_predecessors ∧
    (∀ e ∈ (analyzeEffectfulOp d st).per_resource_access_info,
      ∀ x ∈ recordIds e.2,
        (∃ e0 ∈ st.per_resource_access_info, x ∈ recordIds e0.2) ∨
          x = d.id) := by
  have hrec' : ∀ r' : ResourceId, ∀ info,
      findRecord st.per_resource_access_info r' = some info →
        d.id ∉ recordIds info := by
    intro r' info hinfo hmem
    rcases lookupA_some_mem hinfo with ⟨e, he, _, hv⟩
    exact hrec e he d.id (hv ▸ hmem) rfl
  by_cases hu : kUnknownResourceId ∈ OpResources d
  · rcases predOK_processUnknown d.id (OpIsReadOnly d)
      (st.per_resource_access_info.map (·.1)) st false hcp hrec' with ⟨h1, h2⟩
    unfold analyzeEffectfulOp
    dsimp only
    simp only [hu, if_true, ite_true]
    generalize hq : processUnknownAccess d.id (OpIsReadOnly d)
      (st.per_resource_access_info.map (·.1)) st false = q
    rw [hq] at h1 h2
    have h3cp : predOK ((if (!q.2) = true then
        AddPredecessorsForAccess q.1 kUnknownResourceId d.id (OpIsReadOnly d)
      else q.1).control_predecessors) := by
      split
      · exact predOK_AddPreds _ _ _ _ h1
          (fun info hinfo => hrec' _ info (h2 ▸ hinfo))
      · exact h1
    have h3pr : (if (!q.2) = true then
        AddPredecessorsForAccess q.1 kUnknownResourceId d.id (OpIsReadOnly d)
      else q.1).per_resource_access_info = st.per_resource_access_info := by
      split
      · rw [AddPreds_pr]
        exact h2
      · exact h2
    constructor
    · rw [TrackAccess_control_predecessors]
      exact h3cp
    · intro e he x hx
      rcases recordIds_TrackAccess _ kUnknownResourceId d.id (OpIsReadOnly d)
        e he x hx with ⟨e0, he0, hx0⟩ | hx0
      · rw [h3pr] at he0
        exact Or.inl ⟨e0, he0, hx0⟩
      · exact Or.inr hx0
  · have hknown := predOK_processKnown d.id (OpIsReadOnly d) (OpResources d) st
      false hcp
      (fun r' hr' info hinfo => hrec' r' info hinfo)
      (nodup_OpResources d) hu
    rcases hknown with ⟨h1, h2, h3⟩
    unfold analyzeEffectfulOp
    dsimp only
    simp only [hu, if_false, ite_false]
    generalize hq : processKnownAccess d.id (OpIsReadOnly d) (OpResources d) st
      false = q
    rw [hq] at h1 h2 h3
    constructor
    · split
      · exact predOK_AddPreds _ _ _ _ h1 h2
      · exact h1
    · intro e he x hx
      have hee : e ∈ q.1.per_resource_access_info := by
        rcases Bool.eq_false_or_eq_true q.2 with hb | hb
        · rw [if_neg (by simp [hb])] at he
          exact he
        · rw [if_pos (by simp [hb])] at he
          rw [AddPreds_pr] at he
          exact he
      exact h3 e hee x hx

theorem predOK_mergeFold :
    ∀ (entries m : PredMap), predOK m → (∀ e ∈ entries, e.1 ∉ e.2) →
      predOK (entries.foldl (fun acc e => setPreds acc e.1 e.2) m) := by
  intro entries
  induction entries with
  | nil => intro m h _; exact h
  | cons e entries ih =>
    intro m h hv
    rw [List.foldl_cons]
    exact ih _ (predOK_setPreds _ h (hv e (List.mem_cons_self _ _)))
      (fun e' he' => hv e' (List.mem_cons_of_mem _ he'))

mutual
theorem predOK_AnalyzeRegion : ∀ (rg : Region) (st : AnalysisState)
    (A : List OpId),
    predOK st.control_predecessors → recSub st.per_resource_access_info A →
    (∀ x ∈ Region.allIds rg, x ∉ A) → (Region.allIds rg).Nodup →
    predOK (AnalyzeRegion rg st).control_predecessors ∧
    recSub (AnalyzeRegion rg st).per_resource_access_info
      (A ++ Region.allIds rg)
  | .nil, _, A, hcp, hrec, _, _ =>
    ⟨hcp, fun e he x hx => List.mem_append.mpr (Or.inl (hrec e he x hx))⟩
  | .cons b bs, st, A, hcp, hrec, hdisj, hnd => by
    simp only [Region.allIds] at hdisj hnd ⊢
    rw [List.nodup_append] at hnd
    obtain ⟨hb, hbs, hdj⟩ := hnd
    rcases predOK_analyzeBlock b st A hcp hrec
      (fun x hx => hdisj x (List.mem_append.mpr (Or.inl hx))) hb with ⟨h1, h2⟩
    rcases predOK_AnalyzeRegion bs _ (A ++ Block.allIds b) h1 h2
      (by
        intro x hx hmem
        rcases List.mem_append.mp hmem with hmem | hmem
        · exact hdisj x (List.mem_append.mpr (Or.inr hx)) hmem
        · exact hdj hmem hx) hbs with ⟨h3, h4⟩
    refine ⟨h3, ?_⟩
    intro e he x hx
    have := h4 e he x hx
    rwa [List.append_assoc] at this

theorem predOK_analyzeBlock : ∀ (b : Block) (st : AnalysisState)
    (A : List OpId),
    predOK st.control_predecessors → recSub st.per_resource_access_info A →
    (∀ x ∈ Block.allIds b, x ∉ A) → (Block.allIds b).Nodup →
    predOK (analyzeBlock b st).control_predecessors ∧
    recSub (analyzeBlock b st).per_resource_access_info (A ++ Block.allIds b)
  | .nil, _, A, hcp, hrec, _, _ =>
    ⟨hcp, fun e he x hx => List.mem_append.mpr (Or.inl (hrec e he x hx))⟩
  | .cons o os, st, A, hcp, hrec, hdisj, hnd => by
    simp only [Block.allIds] at hdisj hnd ⊢
    rw [List.nodup_append] at hnd
    obtain ⟨ho, hos, hdj⟩ := hnd
    rcases predOK_analyzeOp o st A hcp hrec
      (fun x hx => hdisj x (List.mem_append.mpr (Or.inl hx))) ho with ⟨h1, h2⟩
    rcases predOK_analyzeBlock os _ (A ++ Op.allIds o) h1 h2
      (by
        intro x hx hmem
        rcases List.mem_append.mp hmem with hmem | hmem
        · exact hdisj x (List.mem_append.mpr (Or.inr hx)) hmem
        · exact hdj hmem hx) hos with ⟨h3, h4⟩
    refine ⟨h3, ?_⟩
    intro e he x hx
    have := h4 e he x hx
    rwa [List.append_assoc] at this

theorem predOK_analyzeChildRegions : ∀ (rs : RegionList) (st : AnalysisState),
    predOK st.control_predecessors → (RegionList.allIds rs).Nodup →
    predOK (analyzeChildRegions rs st).control_predecessors ∧
    (analyzeChildRegions rs st).per_resource_access_info =
      st.per_resource_access_info
  | .nil, _, h, _ => ⟨h, rfl⟩
  | .cons r rs, st, h, hnd => by
    simp only [RegionList.allIds, List.nodup_append] at hnd
    obtain ⟨hr, hrs, _⟩ := hnd
    have hchild := (predOK_AnalyzeRegion r {} []
      (fun e he => absurd he (List.not_mem_nil e))
      (fun e he => absurd he (List.not_mem_nil e))
      (fun x _ => List.not_mem_nil x) hr).1
    simp only [analyzeChildRegions]
    exact predOK_analyzeChildRegions rs _ (predOK_mergeFold _ _ h hchild) hrs

theorem predOK_analyzeOp : ∀ (o : Op) (st : AnalysisState) (A : List OpId),
    predOK st.control_predecessors → recSub st.per_resource_access_info A →
    (∀ x ∈ Op.allIds o, x ∉ A) → (Op.allIds o).Nodup →
    predOK (analyzeOp o st).control_predecessors ∧
    recSub (analyzeOp o st).per_resource_access_info (A ++ Op.allIds o)
  | .mk d regions, st, A, hcp, hrec, hdisj, hnd => by
    simp only [Op.allIds] at hdisj hnd ⊢
    have hndr : (RegionList.allIds regions).Nodup := (List.nodup_cons.mp hnd).2
    rcases predOK_analyzeChildRegions regions st hcp hndr with ⟨h1, h2⟩
    rw [analyzeOp_mk]
    have hrec1 : recSub
        (analyzeChildRegions regions st).per_resource_access_info A := by
      rw [h2]
      exact hrec
    by_cases hdecl : OpIsDeclaration d = true
    · rw [if_pos hdecl]
      exact ⟨h1, fun e he x hx =>
        List.mem_append.mpr (Or.inl (hrec1 e he x hx))⟩
    · rw [if_neg hdecl]
      by_cases hskip :
          ((GetResourceInfoForOp d).isNone && OpIsKnownToHaveNoSideEffect d)
            = true
      · rw [if_pos hskip]
        exact ⟨h1, fun e he x hx =>
          List.mem_append.mpr (Or.inl (hrec1 e he x hx))⟩
      · rw [if_neg hskip]
        have hid : d.id ∉ A := hdisj d.id (List.mem_cons_self _ _)
        rcases predOK_analyzeEffectfulOp d _ h1
          (fun e he x hx hxid => hid (hxid ▸ hrec1 e he x hx)) with ⟨h3, h4⟩
        refine ⟨h3, ?_⟩
        intro e he x hx
        rcases h4 e he x hx with ⟨e0, he0, hx0⟩ | hx0
        · exact List.mem_append.mpr (Or.inl (hrec1 e0 he0 x hx0))
        · refine List.mem_append.mpr (Or.inr ?_)
          rw [hx0]
          exact List.mem_cons_self _ _
end

/-- The value stored under each key of the raw successor map is the list of
map keys whose predecessor set contains that key, in map order. -/
theorem rawSuccessors_entry (cps : PredMap) (hv : ∀ e ∈ cps, e.2.Nodup) :
    ∀ e0 ∈ rawSuccessors cps,
      e0.2 = ((cps.filter (fun e => decide (e0.1 ∈ e.2))).map Prod.fst) := by
  intro e0 he0
  have hkeys : ((rawSuccessors cps).map Prod.fst).Nodup := by
    unfold rawSuccessors
    exact keys_nodup_rawFold _ [] List.nodup_nil
  have hl := lookupA_of_nodup_mem hkeys he0
  have hchar := succ_rawFold cps [] e0.1 hv
  unfold rawSuccessors at hl
  rw [hl] at hchar
  simpa using hchar

/-- C10: for every analyzed function body with globally distinct operation ids,
no operation appears in its own predecessor list or its own successor list of
the finalized graph: the dependency relation is irreflexive. -/
theorem claim_C10_irreflexive (body : Region)
    (hnd : (Region.allIds body).Nodup) :
    (∀ e ∈ (AnalyzeFunction body).sorted_control_predecessors, e.1 ∉ e.2) ∧
    (∀ e ∈ (AnalyzeFunction body).sorted_control_successors, e.1 ∉ e.2) := by
  have hpred : predOK (AnalyzeRegion body {}).control_predecessors :=
    (predOK_AnalyzeRegion body {} []
      (fun e he => absurd he (List.not_mem_nil e))
      (fun e he => absurd he (List.not_mem_nil e))
      (fun x _ => List.not_mem_nil x) hnd).1
  have hWF : WFPredMap (AnalyzeRegion body {}).control_predecessors :=
    WF_AnalyzeRegion body {} WFPredMap_nil
  constructor
  · intro e he
    unfold AnalyzeFunction buildGraph at he
    simp only [List.mem_map] at he
    rcases he with ⟨e0, he0, rfl⟩
    intro hmem
    exact hpred e0 he0
      ((List.perm_insertionSort (· ≤ ·) e0.2).mem_iff.mp hmem)
  · intro e he
    unfold AnalyzeFunction buildGraph at he
    simp only [List.mem_map] at he
    rcases he with ⟨e0, he0, rfl⟩
    intro hmem
    have hmem0 : e0.1 ∈ e0.2 :=
      (List.perm_insertionSort (· ≤ ·) e0.2).mem_iff.mp hmem
    rw [rawSuccessors_entry _ hWF.2 e0 he0] at hmem0
    rcases List.mem_map.mp hmem0 with ⟨en, hen, hfst⟩
    have hen2 := List.mem_filter.mp hen
    have : e0.1 ∈ en.2 := by
      have := hen2.2
      simpa using this
    exact hpred en hen2.1 (hfst ▸ this)

/-- Witness for C10 at the concrete four-operation scenario program. -/
theorem claim_C10_witness :
    (∀ e ∈ (AnalyzeFunction
        (scenarioWriteReadReadWrite 5)).sorted_control_predecessors,
      e.1 ∉ e.2) ∧
    (∀ e ∈ (AnalyzeFunction
        (scenarioWriteReadReadWrite 5)).sorted_control_successors,
      e.1 ∉ e.2) :=
  claim_C10_irreflexive (scenarioWriteReadReadWrite 5) (by decide)

/-! Infrastructure for the declaration claim: a given operation id is only used
by declaration operations, and the id never enters the analysis state. -/

mutual
/-- Every operation in the tree whose id is `x` is a declaration. -/
def Op.declOnly (x : OpId) : Op → Bool
  | .mk d rs => (d.id != x || OpIsDeclaration d) && RegionList.declOnly x rs

/-- `Op.declOnly` over a list of regions. -/
def RegionList.declOnly (x : OpId) : RegionList → Bool
  | .nil => true
  | .cons r rs => Region.declOnly x r && RegionList.declOnly x rs

/-- `Op.declOnly` over a region. -/
def Region.declOnly (x : OpId) : Region → Bool
  | .nil => true
  | .cons b bs => Block.declOnly x b && Region.declOnly x bs

/-- `Op.declOnly` over a block. -/
def Block.declOnly (x : OpId) : Block → Bool
  | .nil => true
  | .cons o os => Op.declOnly x o && Block.declOnly x os
end

/-- The operation id `x` occurs nowhere in the analysis state: not as a
predecessor-map key, not in any predecessor set, not in any access record. -/
def xFree (x : OpId) (st : AnalysisState) : Prop :=
  (∀ e ∈ st.control_predecessors, e.1 ≠ x ∧ x ∉ e.2) ∧
  (∀ e ∈ st.per_resource_access_info, x ∉ recordIds e.2)

theorem xFree_nil (x : OpId) : xFree x {} :=
  ⟨fun e he => absurd he (List.not_mem_nil e),
   fun e he => absurd he (List.not_mem_nil e)⟩

theorem xFree_preds_not_mem {x : OpId} {m : PredMap}
    (h : ∀ e ∈ m, e.1 ≠ x ∧ x ∉ e.2) (op : OpId) : x ∉ predsOf m op := by
  unfold predsOf findPreds
  cases hl : lookupA m op with
  | none => simp
  | some v =>
    rcases lookupA_some_mem hl with ⟨e, he, _, hv⟩
    simp only [Option.getD_some]
    exact hv ▸ (h e he).2

theorem xFree_setPreds {x : OpId} {m : PredMap} (k : OpId) {s : List OpId}
    (hm : ∀ e ∈ m, e.1 ≠ x ∧ x ∉ e.2) (hk : k ≠ x) (hs : x ∉ s) :
    ∀ e ∈ setPreds m k s, e.1 ≠ x ∧ x ∉ e.2 := by
  unfold setPreds
  refine upsert_forall2 (fun e => e.1 ≠ x ∧ x ∉ e.2) _ _ _ _ hm ?_ ⟨hk, hs⟩
  intro e he hbeq
  exact ⟨(eq_of_beq hbeq) ▸ hk, hs⟩

theorem xFree_AddPreds (st : AnalysisState) (r : ResourceId) (op : OpId)
    (ro : Bool) {x : OpId} (hx : x ≠ op) (h : xFree x st) :
    xFree x (AddPredecessorsForAccess st r op ro) := by
  refine ⟨?_, by rw [AddPreds_pr]; exact h.2⟩
  rw [AddPreds_eq]
  cases hf : findRecord st.per_resource_access_info r with
  | none => exact h.1
  | some info =>
    have hs2 : x ∉ addedPreds info (predsOf st.control_predecessors op) ro := by
      refine not_mem_addedPreds _ _ _ _ (xFree_preds_not_mem h.1 op) ?_
      rcases lookupA_some_mem hf with ⟨e, he, _, hv⟩
      exact hv ▸ h.2 e he
    exact xFree_setPreds op h.1 (Ne.symm hx) hs2

theorem xFree_TrackAccess (st : AnalysisState) (r : ResourceId) (op : OpId)
    (ro : Bool) {x : OpId} (hx : x ≠ op) (h : xFree x st) :
    xFree x (TrackAccess st r op ro) := by
  refine ⟨by rw [TrackAccess_control_predecessors]; exact h.1, ?_⟩
  have hm1 : ∀ e1 ∈ (if r == kUnknownResourceId then
      (if ro then
        st.per_resource_access_info.map
          (fun e => (e.1, { e.2 with tracked_last_unknown_read := false }))
      else ([] : AccessMap))
    else st.per_resource_access_info), x ∉ recordIds e1.2 := by
    intro e1 he1
    by_cases hru : (r == kUnknownResourceId) = true
    · rw [if_pos hru] at he1
      by_cases hro : ro = true
      · rw [if_pos hro] at he1
        rcases List.mem_map.mp he1 with ⟨e0, he0, rfl⟩
        exact h.2 e0 he0
      · rw [if_neg hro] at he1
        exact absurd he1 (List.not_mem_nil e1)
    · rw [if_neg hru] at he1
      exact h.2 e1 he1
  intro e he
  rw [TrackAccess_pr_eq] at he
  unfold updateRecord at he
  refine upsert_forall2 (fun e => x ∉ recordIds e.2) _ _ _ _ hm1 ?_ ?_ e he
  · intro e1 he1 _ hmem
    rcases recordIds_trackUpdate op ro e1.2 x hmem with hmem | hmem
    · exact hm1 e1 he1 hmem
    · exact hx hmem
  · intro hmem
    rcases recordIds_trackUpdate op ro {} x hmem with hmem | hmem
    · exact absurd hmem (List.not_mem_nil x)
    · exact hx hmem

theorem xFree_processUnknown (opid : OpId) (ro : Bool) {x : OpId}
    (hx : x ≠ opid) :
    ∀ (keys : List ResourceId) (st : AnalysisState) (ind : Bool), xFree x st →
      xFree x (processUnknownAccess opid ro keys st ind).1 := by
  intro keys
  induction keys with
  | nil => intro st ind h; exact h
  | cons r rest ih =>
    intro st ind h
    simp only [processUnknownAccess]
    split
    · exact ih _ _ h
    · exact ih _ _ (xFree_AddPreds _ _ _ _ hx h)

theorem xFree_processKnown (opid : OpId) (ro : Bool) {x : OpId}
    (hx : x ≠ opid) :
    ∀ (rs : List ResourceId) (st : AnalysisState) (ind : Bool), xFree x st →
      xFree x (processKnownAccess opid ro rs st ind).1 := by
  intro rs
  induction rs with
  | nil => intro st ind h; exact h
  | cons r rest ih =>
    intro st ind h
    simp only [processKnownAccess]
    exact ih _ _ (xFree_TrackAccess _ _ _ _ hx (xFree_AddPreds _ _ _ _ hx h))

theorem xFree_analyzeEffectfulOp (d : OpData) (st : AnalysisState) {x : OpId}
    (hx : x ≠ d.id) (h : xFree x st) : xFree x (analyzeEffectfulOp d st) := by
  by_cases hu : kUnknownResourceId ∈ OpResources d
  · have h1 := xFree_processUnknown d.id (OpIsReadOnly d) hx
      (st.per_resource_access_info.map (·.1)) st false h
    unfold analyzeEffectfulOp
    dsimp only
    simp only [hu, if_true, ite_true]
    refine xFree_TrackAccess _ _ _ _ hx ?_
    split
    · exact xFree_AddPreds _ _ _ _ hx h1
    · exact h1
  · have h1 := xFree_processKnown d.id (OpIsReadOnly d) hx (OpResources d) st
      false h
    unfold analyzeEffectfulOp
    dsimp only
    simp only [hu, if_false, ite_false]
    split
    · exact xFree_AddPreds _ _ _ _ hx h1
    · exact h1

theorem xFree_mergeFold {x : OpId} :
    ∀ (entries m : PredMap), (∀ e ∈ m, e.1 ≠ x ∧ x ∉ e.2) →
      (∀ e ∈ entries, e.1 ≠ x ∧ x ∉ e.2) →
      ∀ e ∈ entries.foldl (fun acc e => setPreds acc e.1 e.2) m,
        e.1 ≠ x ∧ x ∉ e.2 := by
  intro entries
  induction entries with
  | nil => intro m h _; exact h
  | cons e entries ih =>
    intro m h hv
    rw [List.foldl_cons]
    exact ih _ (xFree_setPreds _ h (hv e (List.mem_cons_self _ _)).1
      (hv e (List.mem_cons_self _ _)).2)
      (fun e' he' => hv e' (List.mem_cons_of_mem _ he'))

mutual
theorem xFree_AnalyzeRegion : ∀ (rg : Region) (st : AnalysisState) (x : OpId),
    Region.declOnly x rg = true → xFree x st → xFree x (AnalyzeRegion rg st)
  | .nil, _, _, _, h => h
  | .cons b bs, st, x, hdo, h => by
    simp only [Region.declOnly, Bool.and_eq_true] at hdo
    exact xFree_AnalyzeRegion bs _ x hdo.2 (xFree_analyzeBlock b st x hdo.1 h)

theorem xFree_analyzeBlock : ∀ (b : Block) (st : AnalysisState) (x : OpId),
    Block.declOnly x b = true → xFree x st → xFree x (analyzeBlock b st)
  | .nil, _, _, _, h => h
  | .cons o os, st, x, hdo, h => by
    simp only [Block.declOnly, Bool.and_eq_true] at hdo
    exact xFree_analyzeBlock os _ x hdo.2 (xFree_analyzeOp o st x hdo.1 h)

theorem xFree_analyzeChildRegions :
    ∀ (rs : RegionList) (st : AnalysisState) (x : OpId),
      RegionList.declOnly x rs = true → xFree x st →
      xFree x (analyzeChildRegions rs st)
  | .nil, _, _, _, h => h
  | .cons r rs, st, x, hdo, h => by
    simp only [RegionList.declOnly, Bool.and_eq_true] at hdo
    have hchild := xFree_AnalyzeRegion r {} x hdo.1 (xFree_nil x)
    simp only [analyzeChildRegions]
    refine xFree_analyzeChildRegions rs _ x hdo.2 ⟨?_, ?_⟩
    · exact xFree_mergeFold _ _ h.1 hchild.1
    · exact h.2

theorem xFree_analyzeOp : ∀ (o : Op) (st : AnalysisState) (x : OpId),
    Op.declOnly x o = true → xFree x st → xFree x (analyzeOp o st)
  | .mk d regions, st, x, hdo, h => by
    simp only [Op.declOnly, Bool.and_eq_true] at hdo
    have h1 := xFree_analyzeChildRegions regions st x hdo.2 h
    rw [analyzeOp_mk]
    by_cases hdecl : OpIsDeclaration d = true
    · rw [if_pos hdecl]
      exact h1
    · rw [if_neg hdecl]
      by_cases hskip :
          ((GetResourceInfoForOp d).isNone && OpIsKnownToHaveNoSideEffect d)
            = true
      · rw [if_pos hskip]
        exact h1
      · rw [if_neg hskip]
        have hxid : x ≠ d.id := by
          have hor := hdo.1
          rw [Bool.or_eq_true] at hor
          rcases hor with hne | hd
          · exact fun hh => (bne_iff_ne.mp hne) hh.symm
          · exact absurd hd hdecl
        exact xFree_analyzeEffectfulOp d _ hxid h1
end

/-- C5: a declaration operation is skipped entirely: analyzing it only merges
its child regions' edges and never touches the per-resource records; and an
operation id used only by declarations never appears in any predecessor or
successor list of the finalized graph. -/
theorem claim_C5_declarations_edge_free :
    (∀ (d : OpData) (rs : RegionList) (st : AnalysisState),
      OpIsDeclaration d = true →
      analyzeOp (.mk d rs) st = analyzeChildRegions rs st ∧
      (analyzeChildRegions rs st).per_resource_access_info =
        st.per_resource_access_info) ∧
    (∀ (body : Region) (x : OpId), Region.declOnly x body = true →
      (∀ e ∈ (AnalyzeFunction body).sorted_control_predecessors, x ∉ e.2) ∧
      (∀ e ∈ (AnalyzeFunction body).sorted_control_successors, x ∉ e.2)) := by
  constructor
  · intro d rs st hd
    exact ⟨by rw [analyzeOp_mk, if_pos hd], analyzeChildRegions_pr rs st⟩
  · intro body x hdo
    have hx := xFree_AnalyzeRegion body {} x hdo (xFree_nil x)
    have hWF : WFPredMap (AnalyzeRegion body {}).control_predecessors :=
      WF_AnalyzeRegion body {} WFPredMap_nil
    constructor
    · intro e he
      unfold AnalyzeFunction buildGraph at he
      simp only [List.mem_map] at he
      rcases he with ⟨e0, he0, rfl⟩
      intro hmem
      exact (hx.1 e0 he0).2
        ((List.perm_insertionSort (· ≤ ·) e0.2).mem_iff.mp hmem)
    · intro e he
      unfold AnalyzeFunction buildGraph at he
      simp only [List.mem_map] at he
      rcases he with ⟨e0, he0, rfl⟩
      intro hmem
      have hmem0 : x ∈ e0.2 :=
        (List.perm_insertionSort (· ≤ ·) e0.2).mem_iff.mp hmem
      rw [rawSuccessors_entry _ hWF.2 e0 he0] at hmem0
      rcases List.mem_map.mp hmem0 with ⟨en, hen, hfst⟩
      exact ((hx.1 en (List.mem_filter.mp hen).1).1) hfst

/-- An operation with id `i` that declares a resource handle (`VarHandleOp`). -/
def declarationOp (i : OpId) : Op :=
  .mk { id := i, isVarHandleOp := true } .nil

/-- A block with a declaration (id 1) between two writes to `r`. -/
def scenarioWithDeclaration (r : ResourceId) : Region :=
  .cons (.cons (writeOp 0 r)
    (.cons (declarationOp 1) (.cons (writeOp 2 r) .nil))) .nil

/-- Witness for C5: the concrete declaration operation is skipped, and its id
appears in no list of the finalized graph of the concrete scenario. -/
theorem claim_C5_witness :
    (analyzeOp (.mk { id := 1, isVarHandleOp := true } .nil) {} =
      analyzeChildRegions .nil {} ∧
      (analyzeChildRegions RegionList.nil
        ({} : AnalysisState)).per_resource_access_info =
        ({} : AnalysisState).per_resource_access_info) ∧
    ((∀ e ∈ (AnalyzeFunction
        (scenarioWithDeclaration 5)).sorted_control_predecessors, 1 ∉ e.2) ∧
     (∀ e ∈ (AnalyzeFunction
        (scenarioWithDeclaration 5)).sorted_control_successors, 1 ∉ e.2)) :=
  ⟨claim_C5_declarations_edge_free.1 { id := 1, isVarHandleOp := true }
      .nil {} (by decide),
   claim_C5_declarations_edge_free.2 (scenarioWithDeclaration 5) 1 (by decide)⟩

end SideEffect

